import Mathlib

/-!
A verification development for the choose-your-own-adventure story pipeline.

The Python sources are shallowly embedded as executable Lean definitions:

* `build_story.py`   — `fix_broken_links` over parsed sections;
* `repair_story_text.py` — OCR token mapping, the choice-sentence matcher,
  choice extraction, node assembly and the ensure-win repair step;
* `validate.py`      — `auto_fix` over persisted nodes;
* `lint_story.py`    — duplicate-choice check/fix, reachability, noise, exit codes;
* `story.py`         — `StoryEngine` node normalization and lookup.

Machine integers are modelled as `Int`/`Nat` (Python integers are unbounded),
strings as Lean `String` over their character lists.  ASCII is assumed for the
case conversions and character classes (all pipeline text and keyword tables
are ASCII); decorative fields (`ascii_art`, the opaque `requires`/`effects`/
`random_event_pool` pass-through maps) are omitted from the node records, as
the spec declares scene art and the opaque maps out of scope and no claim
mentions them.
-/

namespace CYOA

/-! ### Generic list helpers (stable insertion sort, as Python `list.sort`) -/

/-- Insert `s` after every element `t` with `le t s`: the insertion step of a
stable insertion sort (equal keys keep their original relative order, as
Python's stable `sort`). -/
def insertLe {α : Type} (le : α → α → Bool) (s : α) : List α → List α
  | [] => [s]
  | t :: ts => if le t s then t :: insertLe le s ts else s :: t :: ts

/-- Auxiliary: fold the input left to right into a sorted accumulator. -/
def sortStableAux {α : Type} (le : α → α → Bool) : List α → List α → List α
  | acc, [] => acc
  | acc, x :: xs => sortStableAux le (insertLe le x acc) xs

/-- Stable sort by a boolean `le` relation (models Python `sorted`/`list.sort`). -/
def sortStable {α : Type} (le : α → α → Bool) (l : List α) : List α :=
  sortStableAux le [] l

/-! ### `build_story.py`: sections, choices and `fix_broken_links` -/

/-- A choice of a parsed section (`parsed_sections.json` entry): label text and
integer destination. -/
structure BChoice where
  text : String
  destination : Int
  deriving DecidableEq

/-- A parsed section as consumed by `fix_broken_links` (`build_story.py`).
Field order mirrors the stub dict literal of the source. -/
structure BSection where
  section_number : Int
  text : String
  choices : List BChoice
  node_type : String
  deriving DecidableEq

/-- `choice_sort_key` of `build_story.py`: `(abs(x - target), x)`. -/
def choice_sort_key (x target : Int) : Int × Int :=
  (|x - target|, x)

/-- Strict lexicographic order on the sort key. -/
def keyLtb (a b : Int × Int) : Bool :=
  a.1 < b.1 || (a.1 == b.1 && a.2 < b.2)

/-- `sorted(near, key=lambda n: choice_sort_key(n, dest))[0]` of the source:
the unique minimum of the key over `first :: rest` (the key's second component
is the element itself, so the minimum is unique and the set's iteration order
is irrelevant). -/
def pickNearest (dest : Int) (first : Int) (rest : List Int) : Int :=
  rest.foldl
    (fun best n =>
      if keyLtb (choice_sort_key n dest) (choice_sort_key best dest) then n else best)
    first

/-- The mutable state threaded through `fix_broken_links`: the set of known
section numbers (`existing`), the stub sections added to `by_num`, and the
report lines. -/
structure RepairState where
  existing : List Int
  stubs : List BSection
  report : List String
  deriving DecidableEq

/-- The stub section `fix_broken_links` synthesizes for an unresolvable
destination: exactly the dict literal of `build_story.py`. -/
def stubSection (dest : Int) : BSection :=
  { section_number := dest
    text := "[Section " ++ toString dest ++ " - not found in source]"
    choices := []
    node_type := "ending_neutral" }

/-- One iteration of the inner loop of `fix_broken_links` over a single choice
of the section numbered `src`: keep a resolvable choice, remap a dangling one
to the nearest existing number within distance 2 (smallest on ties), otherwise
synthesize a stub section at the dangling destination. -/
def processChoice (src : Int) (st : RepairState) (c : BChoice) : BChoice × RepairState :=
  if c.destination ∈ st.existing then (c, st)
  else
    match st.existing.filter (fun n => |n - c.destination| ≤ 2) with
    | n :: ns =>
      let r := pickNearest c.destination n ns
      ({ c with destination := r },
       { st with
          report := st.report ++
            ["Remapped missing destination " ++ toString c.destination ++ " -> " ++
              toString r ++ " (source section " ++ toString src ++ ")"] })
    | [] =>
      (c,
       { existing := st.existing ++ [c.destination]
         stubs := st.stubs ++ [stubSection c.destination]
         report := st.report ++
           ["Created stub section " ++ toString c.destination ++
             " (referenced by section " ++ toString src ++ ")"] })

/-- The inner loop over all choices of one section. -/
def processChoices (src : Int) (st : RepairState) : List BChoice → List BChoice × RepairState
  | [] => ([], st)
  | c :: cs =>
    let p := processChoice src st c
    let rest := processChoices src p.2 cs
    (p.1 :: rest.1, rest.2)

/-- Process one section: its choices are rewritten in place. -/
def processSection (st : RepairState) (s : BSection) : BSection × RepairState :=
  let p := processChoices s.section_number st s.choices
  ({ s with choices := p.1 }, p.2)

/-- The outer loop of `fix_broken_links` over the input section list. -/
def processSections (st : RepairState) : List BSection → List BSection × RepairState
  | [] => ([], st)
  | s :: ss =>
    let p := processSection st s
    let rest := processSections p.2 ss
    (p.1 :: rest.1, rest.2)

/-- `{key(s): s for s in l}` keeps, for every key, the LAST element of the
list carrying it (dict comprehension semantics). -/
def keepLastBy {α : Type} (key : α → Int) : List α → List α
  | [] => []
  | s :: rest =>
    if rest.any (fun t => key t == key s)
    then keepLastBy key rest
    else s :: keepLastBy key rest

/-- `by_num = {s["section_number"]: s for s in sections}` of `fix_broken_links`. -/
def keepLast : List BSection → List BSection :=
  keepLastBy (fun s => s.section_number)

/-- Boolean order on sections by `section_number` (for `sorted(by_num)`). -/
def bsecLe (a b : BSection) : Bool :=
  a.section_number ≤ b.section_number

/-- `fix_broken_links` of `build_story.py`: remap every dangling destination to
the closest existing section number within absolute distance 2 (smallest number
on ties), else synthesize a stub ending; return the full section list sorted
ascending by number, plus the report lines. -/
def fix_broken_links (sections : List BSection) : List BSection × List String :=
  let st0 : RepairState :=
    { existing := sections.map (fun s => s.section_number), stubs := [], report := [] }
  let p := processSections st0 sections
  (sortStable bsecLe (keepLast p.1 ++ p.2.stubs), p.2.report)

/-! ### `repair_story_text.py`: OCR digit map and `token_to_int` -/

/-- `DIGIT_OCR_MAP` of `repair_story_text.py`. -/
def DIGIT_OCR_MAP : List (Char × Char) :=
  [('O', '0'), ('o', '0'), ('I', '1'), ('l', '1'), ('S', '5'), ('s', '5'),
   ('B', '8'), ('g', '9'), ('q', '9'), ('H', '7'), ('h', '7')]

/-- `char in DIGIT_OCR_MAP` / `DIGIT_OCR_MAP[char]`. -/
def ocrLookup (c : Char) : Option Char :=
  (DIGIT_OCR_MAP.find? (fun p => p.1 == c)).map (fun p => p.2)

/-- `int("".join(chars))` for a non-empty list of ASCII digits. -/
def digitsVal (cs : List Char) : Int :=
  cs.foldl (fun acc c => 10 * acc + Int.ofNat (c.toNat - 48)) 0

/-- The character loop of `token_to_int`: a digit is kept, an OCR-confusable
maps through the table, anything else aborts. -/
def ocrChars : List Char → Option (List Char)
  | [] => some []
  | c :: cs =>
    if c.isDigit then (ocrChars cs).map (fun r => c :: r)
    else
      match ocrLookup c with
      | some d => (ocrChars cs).map (fun r => d :: r)
      | none => none

/-- `token_to_int` of `repair_story_text.py`.  (`str.isdigit` is modelled for
ASCII digits; every token the callers produce is ASCII alphanumeric.) -/
def token_to_int (token : String) : Option Int :=
  if token.data ≠ [] ∧ token.data.all Char.isDigit then some (digitsVal token.data)
  else
    match ocrChars token.data with
    | none => none
    | some [] => none
    | some cs => some (digitsVal cs)

/-- The spec's description of the table: a digit stays itself, a confusable
maps through `DIGIT_OCR_MAP` (used only to state the claim about
`token_to_int`). -/
def ocrMappedDigit (c : Char) : Char :=
  if c.isDigit then c else (ocrLookup c).getD c

/-! ### Character-level helpers shared by the text pipeline -/

/-- Python `\s` over ASCII. -/
def isPySpace (c : Char) : Bool :=
  c == ' ' || c == '\t' || c == '\n' || c == '\r' || c == '\x0b' || c == '\x0c'

/-- Python regex `\w` over ASCII. -/
def isWordChar (c : Char) : Bool :=
  c.isAlphanum || c == '_'

def optIsWord (o : Option Char) : Bool :=
  (o.map isWordChar).getD false

/-- A word boundary `\b` between two adjacent characters (`none` = outside the
string). -/
def bnd (prev next : Option Char) : Bool :=
  optIsWord prev != optIsWord next

/-- The sentence breakers of the choice regex: the class `[^.!?\n]` excludes
exactly these. -/
def isSentB (c : Char) : Bool :=
  c == '.' || c == '!' || c == '?' || c == '\n'

/-- Match a (lowercase) pattern case-insensitively at the head of the input;
returns the rest. -/
def matchCI : List Char → List Char → Option (List Char)
  | [], s => some s
  | _ :: _, [] => none
  | p :: ps, c :: cs => if c.toLower == p then matchCI ps cs else none

/-- Strip an exact prefix. -/
def stripPre : List Char → List Char → Option (List Char)
  | [], s => some s
  | _ :: _, [] => none
  | p :: ps, c :: cs => if c == p then stripPre ps cs else none

/-- Python `str.replace`, non-overlapping left to right.  The fuel starts at
the input length; every step consumes at least one character, so it never runs
out. -/
def replCharsF (pat rep : List Char) : Nat → List Char → List Char
  | 0, s => s
  | _, [] => []
  | fuel + 1, c :: cs =>
    match stripPre pat (c :: cs) with
    | some rest =>
      if pat.isEmpty then c :: replCharsF pat rep fuel cs
      else rep ++ replCharsF pat rep fuel rest
    | none => c :: replCharsF pat rep fuel cs

def strReplace (s pat rep : String) : String :=
  ⟨replCharsF pat.data rep.data s.data.length s.data⟩

/-- A left-to-right regex substitution scanner: at each position either replace
a match (continuing after it, as `re.sub`) or advance one character. -/
def scanSub (tryAt : List Char → Option (List Char × List Char)) :
    Nat → List Char → List Char
  | 0, s => s
  | _, [] => []
  | fuel + 1, c :: cs =>
    match tryAt (c :: cs) with
    | some (rep, rest) => rep ++ scanSub tryAt fuel rest
    | none => c :: scanSub tryAt fuel cs

/-- As `scanSub`, for patterns whose match depends on the previous character
(word boundaries); `tryAt` returns the replacement, the rest, and the last
matched character of the original text. -/
def scanSubPrev
    (tryAt : Option Char → List Char → Option (List Char × List Char × Option Char)) :
    Nat → Option Char → List Char → List Char
  | 0, _, s => s
  | _, _, [] => []
  | fuel + 1, prev, c :: cs =>
    match tryAt prev (c :: cs) with
    | some (rep, rest, lastc) => rep ++ scanSubPrev tryAt fuel lastc rest
    | none => c :: scanSubPrev tryAt fuel (some c) cs

/-! ### `normalize_text` / `normalize_ws` of `repair_story_text.py` -/

/-- One attempt of `(?i)(page|section)\s+(\d)\s+(\d)\b -> "\1 \2\3"` at the
current position (`page` tried before `section`, as the alternation). -/
def tryPageSplit2 (s : List Char) : Option (List Char × List Char) :=
  let tryWord := fun (w : List Char) =>
    match matchCI w s with
    | none => none
    | some rest =>
      if (rest.takeWhile isPySpace).isEmpty then none
      else
        match rest.dropWhile isPySpace with
        | d1 :: r2 =>
          if d1.isDigit then
            if (r2.takeWhile isPySpace).isEmpty then none
            else
              match r2.dropWhile isPySpace with
              | d2 :: r4 =>
                if d2.isDigit && !optIsWord r4.head? then
                  some (s.take w.length ++ [' ', d1, d2], r4)
                else none
              | [] => none
          else none
        | [] => none
  match tryWord "page".data with
  | some r => some r
  | none => tryWord "section".data

/-- One attempt of `(?i)(page|section)\s+(\d)\s+(\d)\s+(\d)\b -> "\1 \2\3\4"`. -/
def tryPageSplit3 (s : List Char) : Option (List Char × List Char) :=
  let tryWord := fun (w : List Char) =>
    match matchCI w s with
    | none => none
    | some rest =>
      if (rest.takeWhile isPySpace).isEmpty then none
      else
        match rest.dropWhile isPySpace with
        | d1 :: r2 =>
          if d1.isDigit then
            if (r2.takeWhile isPySpace).isEmpty then none
            else
              match r2.dropWhile isPySpace with
              | d2 :: r4 =>
                if d2.isDigit then
                  if (r4.takeWhile isPySpace).isEmpty then none
                  else
                    match r4.dropWhile isPySpace with
                    | d3 :: r6 =>
                      if d3.isDigit && !optIsWord r6.head? then
                        some (s.take w.length ++ [' ', d1, d2, d3], r6)
                      else none
                    | [] => none
                else none
              | [] => none
          else none
        | [] => none
  match tryWord "page".data with
  | some r => some r
  | none => tryWord "section".data

/-- `normalize_text` of `repair_story_text.py`: line endings, typographic
glyphs, soft hyphens, underscores, then the two split-page-number repairs. -/
def normalize_text (raw : String) : String :=
  let t := strReplace raw "\r\n" "\n"
  let t := strReplace t "\r" "\n"
  let t := strReplace t "—" "-"
  let t := strReplace t "–" "-"
  let t := strReplace t "“" "\""
  let t := strReplace t "”" "\""
  let t := strReplace t "’" "'"
  let t := strReplace t "‘" "'"
  let t := strReplace t "­" ""
  let t := strReplace t "_" " "
  let cs := t.data
  let cs := scanSub tryPageSplit2 (cs.length + 1) cs
  let cs := scanSub tryPageSplit3 (cs.length + 1) cs
  ⟨cs⟩

/-- Collapse every whitespace run to a single space (`re.sub(r"\s+", " ", _)`);
the flag records whether the previous character was part of a run. -/
def squashWs : Bool → List Char → List Char
  | _, [] => []
  | inRun, c :: cs =>
    if isPySpace c then
      if inRun then squashWs true cs else ' ' :: squashWs true cs
    else c :: squashWs false cs

/-- Python `str.strip()` (whitespace, ASCII). -/
def pyStripWs (cs : List Char) : List Char :=
  ((cs.dropWhile isPySpace).reverse.dropWhile isPySpace).reverse

/-- Python `str.strip(chars)`. -/
def stripChars (cset : List Char) (cs : List Char) : List Char :=
  ((cs.dropWhile (fun c => cset.contains c)).reverse.dropWhile
    (fun c => cset.contains c)).reverse

/-- `normalize_ws` of `repair_story_text.py`. -/
def normalize_ws (s : String) : String :=
  ⟨pyStripWs (squashWs false s.data)⟩

/-! ### The `CHOICE_SENTENCE_RE` matcher

A hand-compiled backtracking matcher for the choice-sentence regex of
`repair_story_text.py` (case-insensitive):

    ( (?:(?:if|when|should|decide|step|wiser|wait|you|you're|to|go)\b[^.!?\n]{0,350}?)?
      \b(?:turn|go|proceed|continue|head|page|section|p\.|pg\.)\b
      [^.!?\n]{0,80}?
      ([0-9A-Za-z]{1,5})
      [^.!?\n]{0,100}[.!?]?
    )

Preference order follows the backtracking engine: the optional prefix group is
tried first with its alternatives in order and a lazy gap, then the cue verb
alternatives in order, then a lazy gap before the greedy token.  The trailing
`[^.!?\n]{0,100}[.!?]?` always succeeds, greedily, so it never causes
backtracking into the token. -/

def prefixCueWords : List (List Char) :=
  ["if", "when", "should", "decide", "step", "wiser", "wait", "you", "you're",
   "to", "go"].map String.data

def verbCueWords : List (List Char) :=
  ["turn", "go", "proceed", "continue", "head", "page", "section", "p.",
   "pg."].map String.data

/-- Greedy `[0-9A-Za-z]{1,n}` starting at the head: the taken run and the rest. -/
def takeAlnumMax : Nat → List Char → List Char × List Char
  | _, [] => ([], [])
  | 0, s => ([], s)
  | n + 1, c :: cs =>
    if c.isAlphanum then
      let p := takeAlnumMax n cs
      (c :: p.1, p.2)
    else ([], c :: cs)

/-- Greedy `[^.!?\n]{0,n}`. -/
def dropNonSB : Nat → List Char → List Char
  | _, [] => []
  | 0, s => s
  | n + 1, c :: cs => if isSentB c then c :: cs else dropNonSB n cs

/-- Optional final `[.!?]?`. -/
def dropFinalPunct : List Char → List Char
  | [] => []
  | c :: cs => if c == '.' || c == '!' || c == '?' then cs else c :: cs

/-- The tail after the cue verb: lazy gap `[^.!?\n]{0,80}?` (the budget), then
the greedy token `([0-9A-Za-z]{1,5})`, then the always-succeeding greedy tail.
Returns the token and the rest after the whole match. -/
def tailMatch : Nat → List Char → Option (List Char × List Char)
  | _, [] => none
  | budget, c :: cs =>
    if c.isAlphanum then
      let p := takeAlnumMax 5 (c :: cs)
      some (p.1, dropFinalPunct (dropNonSB 100 p.2))
    else if isSentB c then none
    else
      match budget with
      | 0 => none
      | b + 1 => tailMatch b cs

/-- Try the cue-verb alternatives in order at the current position (the
leading `\b` has been checked by the caller); on a cue whose tail fails,
backtrack to the next alternative. -/
def tryVerbCues (s : List Char) : List (List Char) → Option (List Char × List Char)
  | [] => none
  | w :: ws =>
    match matchCI w s with
    | some rest =>
      if bnd w.getLast? rest.head? then
        match tailMatch 80 rest with
        | some r => some r
        | none => tryVerbCues s ws
      else tryVerbCues s ws
    | none => tryVerbCues s ws

/-- `\b(?:turn|go|...)\b` followed by the tail, at the current position. -/
def cueAttempt (prev : Option Char) (s : List Char) : Option (List Char × List Char) :=
  if bnd prev s.head? then tryVerbCues s verbCueWords else none

/-- The lazy gap `[^.!?\n]{0,350}?` between a matched prefix word and the cue:
try the cue at the current position first, else consume one non-breaker
character (while budget lasts). -/
def gapCue : Nat → Char → List Char → Option (List Char × List Char)
  | 0, prevc, s => cueAttempt (some prevc) s
  | b + 1, prevc, s =>
    match cueAttempt (some prevc) s with
    | some r => some r
    | none =>
      match s with
      | [] => none
      | c :: cs => if isSentB c then none else gapCue b c cs

/-- The optional prefix group: its alternatives in order; each matched
alternative is followed by `\b` and the lazy gap to the cue. -/
def tryPrefixCues (s : List Char) : List (List Char) → Option (List Char × List Char)
  | [] => none
  | w :: ws =>
    match matchCI w s with
    | some rest =>
      if bnd w.getLast? rest.head? then
        match (match w.getLast? with
               | some lc => gapCue 350 lc rest
               | none => none) with
        | some r => some r
        | none => tryPrefixCues s ws
      else tryPrefixCues s ws
    | none => tryPrefixCues s ws

/-- One match attempt at the current position: the prefix-present branch is
preferred (the optional group is greedy), else the cue directly. -/
def matchAttempt (prev : Option Char) (s : List Char) : Option (List Char × List Char) :=
  match tryPrefixCues s prefixCueWords with
  | some r => some r
  | none => cueAttempt prev s

/-- `finditer`: scan left to right; after a match, resume right after it.
Every step consumes at least one character, so fuel `length + 1` suffices.
Returns `(group(1), group(2))` pairs as character lists. -/
def findAllMatches : Nat → Option Char → List Char → List (List Char × List Char)
  | 0, _, _ => []
  | fuel + 1, prev, s =>
    match matchAttempt prev s with
    | some (tok, rest) =>
      let consumed := s.take (s.length - rest.length)
      (consumed, tok) :: findAllMatches fuel consumed.getLast? rest
    | none =>
      match s with
      | [] => []
      | c :: cs => findAllMatches fuel (some c) cs

/-! ### `clean_choice_label` and `extract_choices` of `repair_story_text.py` -/

def punctAfterWs : List Char := [',', '.', '!', '?', ';', ':']

/-- One attempt of `re.sub(r"\s+([,.!?;:])", r"\1", _)`. -/
def trySpacePunct (s : List Char) : Option (List Char × List Char) :=
  match s with
  | c :: _ =>
    if isPySpace c then
      match s.dropWhile isPySpace with
      | p :: ps => if punctAfterWs.contains p then some ([p], ps) else none
      | [] => none
    else none
  | [] => none

/-- One attempt of `re.sub(r"(?i)\bpage\b", "section", _)`; the continuation's
previous character is the matched `e` (same word class in either case). -/
def tryPageWord (prev : Option Char) (s : List Char) :
    Option (List Char × List Char × Option Char) :=
  if bnd prev s.head? then
    match matchCI "page".data s with
    | some rest =>
      if bnd (some 'e') rest.head? then some ("section".data, rest, some 'e')
      else none
    | none => none
  else none

/-- One attempt of
`re.sub(r"(?i)\b(section)\s+[0-9A-Za-z]{1,5}\b", f"section {destination}", _)`:
the greedy bounded token with a trailing `\b` matches exactly a full
alphanumeric run of length 1..5 not followed by a word character. -/
def trySectionNum (dest : Int) (prev : Option Char) (s : List Char) :
    Option (List Char × List Char × Option Char) :=
  if bnd prev s.head? then
    match matchCI "section".data s with
    | some rest =>
      if (rest.takeWhile isPySpace).isEmpty then none
      else
        let r1 := rest.dropWhile isPySpace
        let run := r1.takeWhile Char.isAlphanum
        let r2 := r1.dropWhile Char.isAlphanum
        if run.length == 0 || run.length > 5 then none
        else if optIsWord r2.head? then none
        else some ("section ".data ++ (toString dest).data, r2, run.getLast?)
    | none => none
  else none

/-- `text[0].upper() + text[1:]` when the first character is lowercase. -/
def capFirst : List Char → List Char
  | [] => []
  | c :: rest => if c.isLower then c.toUpper :: rest else c :: rest

/-- `clean_choice_label` of `repair_story_text.py`. -/
def clean_choice_label (label : String) (destination : Int) : String :=
  let t0 := (normalize_text label).data
  let t1 := stripChars [' ', '-', '_', '~'] (squashWs false t0)
  let t2 := scanSub trySpacePunct (t1.length + 1) t1
  let t3 := scanSubPrev tryPageWord (t2.length + 1) none t2
  let t4 := scanSubPrev (trySectionNum destination) (t3.length + 1) none t3
  let t5 := capFirst t4
  let alpha := (t5.filter Char.isAlpha).length
  if alpha < 6 || t5.length < 8 then
    "Go to section " ++ toString destination ++ "."
  else if t5.length > 60 then
    String.mk ((t5.take 57).reverse.dropWhile isPySpace).reverse ++ "..."
  else String.mk t5

/-- The extraction loop of `extract_choices`: convert the token, keep
destinations in `[1, 500]` not yet seen, stop once four choices were found. -/
def extractLoop : List (String × String) → List Int → Nat → List (String × Int)
  | [], _, _ => []
  | (sent, tok) :: rest, seen, found =>
    match token_to_int tok with
    | none => extractLoop rest seen found
    | some d =>
      if 1 ≤ d && d ≤ 500 then
        if seen.contains d then extractLoop rest seen found
        else
          if found + 1 ≥ 4 then [(clean_choice_label sent d, d)]
          else (clean_choice_label sent d, d) :: extractLoop rest (d :: seen) (found + 1)
      else extractLoop rest seen found

/-- `CHOICE_SENTENCE_RE.finditer` with `match.group(1).strip()` and
`match.group(2).strip()`. -/
def choiceMatches (text : String) : List (String × String) :=
  (findAllMatches (text.data.length + 1) none text.data).map
    (fun p => (String.mk (pyStripWs p.1), String.mk (pyStripWs p.2)))

/-- `extract_choices` of `repair_story_text.py`. -/
def extract_choices (raw : String) : List (String × Int) :=
  extractLoop (choiceMatches (normalize_ws (normalize_text raw))) [] 0

/-! ### `infer_node_type`, node assembly and the ensure-win step of
`repair_story_text.py` (`build_story`, lines 604-657) -/

/-- Substring test (`needle in hay` of Python). -/
def infixOf (needle : List Char) : List Char → Bool
  | [] => needle.isEmpty
  | c :: cs => needle.isPrefixOf (c :: cs) || infixOf needle cs

def strContains (hay needle : String) : Bool :=
  infixOf needle.data hay.data

/-- Python `str.lower()` (ASCII). -/
def strLower (s : String) : String :=
  ⟨s.data.map Char.toLower⟩

/-- Python `str.strip()` (ASCII whitespace). -/
def strStrip (s : String) : String :=
  ⟨pyStripWs s.data⟩

def VALID_NODE_TYPES : List String :=
  ["normal", "ending_win", "ending_death", "ending_neutral"]

def death_terms : List String :=
  ["death", "die", "dead", "killed", "execution", "burn", "collapse",
   "you don't", "too late", "never seen again", "won't be"]

def win_terms : List String :=
  ["victory", "you survive", "you return", "back in your own time",
   "you are free", "you find the forbidden castle", "worth the trip"]

/-- `infer_node_type` of `repair_story_text.py`. -/
def infer_node_type (text : String) (has_choices : Bool) : String :=
  if has_choices then "normal"
  else
    let lower := strLower text
    if death_terms.any (fun t => strContains lower t) then "ending_death"
    else if win_terms.any (fun t => strContains lower t) then "ending_win"
    else "ending_neutral"

/-- A choice row of an extracted section payload (`extract_section_payload`):
label text and integer destination.  The opaque `requires`/`effects` maps are
omitted (always `{}` in this pipeline, out of the claims' scope). -/
structure PChoice where
  text : String
  destination : Int
  deriving DecidableEq

/-- A section payload as held in `parsed` by `build_story`. -/
structure Payload where
  section_number : Int
  title : String
  text : String
  node_type : String
  choices : List PChoice
  deriving DecidableEq

/-- A persisted choice record: label and `next` id. -/
structure RChoice where
  text : String
  next : String
  deriving DecidableEq

/-- A persisted story node (`ascii_art`, `effects` and `random_event_pool` are
display/opaque fields, omitted; no claim mentions them). -/
structure RNode where
  id : String
  section_number : Int
  title : String
  text : String
  node_type : String
  choices : List RChoice
  deriving DecidableEq

/-- The node-assembly step of `build_story` (lines 604-638) for one payload:
choices are capped at 4 and relabelled with `next = "section_<dest>"`, an
invalid node type is reinferred, any node with choices is forced `normal`,
and title/text fall back to defaults when blank. -/
def assembleNode (p : Payload) : RNode :=
  let choices := (p.choices.take 4).map (fun c =>
    ({ text := ⟨c.text.data.take 60⟩
       next := "section_" ++ toString c.destination } : RChoice))
  let nt1 :=
    if VALID_NODE_TYPES.contains p.node_type then p.node_type
    else infer_node_type p.text (!choices.isEmpty)
  let nt2 := if choices.isEmpty then nt1 else "normal"
  let title :=
    if strStrip p.title = "" then "Section " ++ toString p.section_number
    else strStrip p.title
  let text :=
    if strStrip p.text = "" then
      "[Section " ++ toString p.section_number ++ " - not found in source]"
    else strStrip p.text
  { id := "section_" ++ toString p.section_number
    section_number := p.section_number
    title := title
    text := text
    node_type := nt2
    choices := choices }

def affirmCues : List String := ["return", "survive", "find", "worth"]

/-- The conversion test of the first ensure-win loop: an `ending_neutral` node
whose text contains "the end" AND one of the affirmative cues. -/
def winCuePred (n : RNode) : Bool :=
  n.node_type == "ending_neutral" &&
  strContains (strLower n.text) "the end" &&
  affirmCues.any (fun t => strContains (strLower n.text) t)

/-- Convert the first node satisfying `p` to `ending_win` (the `for`/`break`
loops of the ensure-win block). -/
def convertFirst (p : RNode → Bool) : List RNode → List RNode
  | [] => []
  | n :: ns =>
    if p n then { n with node_type := "ending_win" } :: ns
    else n :: convertFirst p ns

def hasWin (nodes : List RNode) : Bool :=
  nodes.any (fun n => n.node_type == "ending_win")

/-- The ensure-win block of `build_story` (lines 644-655): when no win ending
exists, first try converting an `ending_neutral` node whose text has "the end"
plus an affirmative cue; failing that, convert the first `ending_neutral` node.
There is no synthesis fallback here. -/
def ensureWin (nodes : List RNode) : List RNode :=
  if hasWin nodes then nodes
  else
    let n1 := convertFirst winCuePred nodes
    if hasWin n1 then n1
    else convertFirst (fun n => n.node_type == "ending_neutral") n1

def payLe (a b : Payload) : Bool :=
  a.section_number ≤ b.section_number

def rnodeLe (a b : RNode) : Bool :=
  a.section_number ≤ b.section_number

/-- The key `(node["section_number"] != 1, node["section_number"])` as a
boolean `≤` (False sorts before True in Python). -/
def rnodeEntryLe (a b : RNode) : Bool :=
  let fa : Nat := if a.section_number = 1 then 0 else 1
  let fb : Nat := if b.section_number = 1 then 0 else 1
  fa < fb || (fa == fb && a.section_number ≤ b.section_number)

def keepLastPayload : List Payload → List Payload :=
  keepLastBy (fun p => p.section_number)

/-- Lines 604-657 of `build_story` (`repair_story_text.py`): assemble nodes
from the `parsed` dict in ascending key order, sort (entry node first when
section 1 exists), and run the ensure-win block. -/
def build_story_finalize (payloads : List Payload) : List RNode :=
  let nodes0 := (sortStable payLe (keepLastPayload payloads)).map assembleNode
  let nodes1 := sortStable rnodeLe nodes0
  let nodes2 :=
    if nodes1.any (fun n => n.section_number == 1) then sortStable rnodeEntryLe nodes1
    else nodes1
  ensureWin nodes2

/-! ### `validate.py`: `auto_fix` -/

/-- A choice record as `auto_fix` sees it (`requires`/`effects` opaque maps
omitted; `auto_fix` only defaults them to `{}`). -/
structure VChoice where
  text : String
  next : String
  deriving DecidableEq

/-- A persisted node record as `validate.py` sees it, schema-complete (the
`setdefault` calls for missing keys and the `ascii_art` reshaping are display
concerns outside the claims; records of the persisted store carry all keys). -/
structure VNode where
  id : String
  section_number : Int
  title : String
  text : String
  node_type : String
  choices : List VChoice
  deriving DecidableEq

def vDeathKeys : List String := ["death", "die", "died", "killed", "fail", "failed"]

def vWinKeys : List String := ["win", "won", "escape", "success", "triumph", "victory"]

/-- `infer_node_type` of `validate.py`. -/
def infer_node_type_v (node : VNode) : String :=
  if !node.choices.isEmpty then "normal"
  else
    let text := strLower node.text
    if vDeathKeys.any (fun k => strContains text k) then "ending_death"
    else if vWinKeys.any (fun k => strContains text k) then "ending_win"
    else "ending_neutral"

/-- Remove duplicate ids keeping the first (also drops a falsy id). -/
def dedupeById : List String → List VNode → List VNode
  | _, [] => []
  | seen, n :: ns =>
    if n.id == "" || seen.contains n.id then dedupeById seen ns
    else n :: dedupeById (n.id :: seen) ns

/-- Lines 115-118 of `auto_fix`: reinfer an invalid node type, else force
`normal` when the node has choices. -/
def fixNodeType (n : VNode) : VNode :=
  if !VALID_NODE_TYPES.contains n.node_type then { n with node_type := infer_node_type_v n }
  else if !n.choices.isEmpty then { n with node_type := "normal" }
  else n

/-- `choice["text"] = str(choice.get("text", ""))[:60]` of the link-check loop. -/
def truncChoices (n : VNode) : VNode :=
  { n with choices := n.choices.map (fun c => { c with text := ⟨c.text.data.take 60⟩ }) }

/-- Keep the first occurrence of each string. -/
def dedupStrAux : List String → List String → List String
  | _, [] => []
  | seen, s :: rest =>
    if seen.contains s then dedupStrAux seen rest
    else s :: dedupStrAux (s :: seen) rest

/-- Code-point `≤` on strings (Python string comparison). -/
def charsLe : List Char → List Char → Bool
  | [], _ => true
  | _ :: _, [] => false
  | a :: restA, b :: restB =>
    if a.val < b.val then true
    else if b.val < a.val then false
    else charsLe restA restB

def strLeB (a b : String) : Bool :=
  charsLe a.data b.data

/-- `missing.split("_")[-1]`. -/
def lastUnderscoreSeg (s : List Char) : List Char :=
  (s.reverse.takeWhile (fun c => c != '_')).reverse

/-- The stub node `auto_fix` appends for a missing `next` id. -/
def vStub (missingId : String) (secNo : Int) : VNode :=
  { id := missingId
    section_number := secNo
    title := "Missing Source Section"
    text := "[Section " ++ toString secNo ++ " - not found in source]"
    node_type := "ending_neutral"
    choices := [] }

/-- The stub-creation loop with the `next_auto` counter threaded through. -/
def makeStubs (nextAuto : Int) : List String → List VNode
  | [] => []
  | m :: ms =>
    let seg := lastUnderscoreSeg m.data
    if "section_".isPrefixOf m && !seg.isEmpty && seg.all Char.isDigit then
      vStub m (digitsVal seg) :: makeStubs nextAuto ms
    else vStub m nextAuto :: makeStubs (nextAuto + 1) ms

/-- `max(existing_numbers) + 1 if existing_numbers else 1`. -/
def nextAutoOf (nodes : List VNode) : Int :=
  match nodes.map (fun n => n.section_number) with
  | [] => 1
  | x :: xs => (xs.foldl (fun a b => if a < b then b else a) x) + 1

/-- Convert the first choice-less `ending_neutral` node to `ending_win`;
report whether one was converted. -/
def vConvertFirstNeutral : List VNode → List VNode × Bool
  | [] => ([], false)
  | n :: ns =>
    if n.node_type == "ending_neutral" && n.choices.isEmpty then
      ({ n with node_type := "ending_win" } :: ns, true)
    else
      let p := vConvertFirstNeutral ns
      (n :: p.1, p.2)

/-- The synthesized final win node of `auto_fix`. -/
def vWinNode : VNode :=
  { id := "section_999"
    section_number := 999
    title := "Final Triumphant Escape"
    text := "You survive and escape. Victory is yours."
    node_type := "ending_win"
    choices := [] }

/-- The win-guarantee block of `auto_fix` (lines 154-174). -/
def ensureWinV (nodes : List VNode) : List VNode :=
  if nodes.any (fun n => n.node_type == "ending_win") then nodes
  else
    let p := vConvertFirstNeutral nodes
    if p.2 then p.1 else p.1 ++ [vWinNode]

def vLe (a b : VNode) : Bool :=
  a.section_number ≤ b.section_number

def vEntryLe (a b : VNode) : Bool :=
  let fa : Nat := if a.section_number = 1 then 0 else 1
  let fb : Nat := if b.section_number = 1 then 0 else 1
  fa < fb || (fa == fb && a.section_number ≤ b.section_number)

/-- `auto_fix` of `validate.py` over schema-complete node records: dedupe ids,
fix node types, truncate choice labels, append stubs for missing `next` ids,
guarantee a win ending, and sort (entry first). -/
def auto_fix (nodes : List VNode) : List VNode :=
  let nodes1 := dedupeById [] nodes
  let idset := nodes1.map (fun n => n.id)
  let nodes2 := (nodes1.map fixNodeType).map truncChoices
  let missing := dedupStrAux []
    (((nodes2.map (fun n => n.choices.map (fun c => c.next))).flatten).filter
      (fun i => !idset.contains i))
  let nodes3 :=
    if missing.isEmpty then nodes2
    else nodes2 ++ makeStubs (nextAutoOf nodes2) (sortStable strLeB missing)
  let nodes4 := ensureWinV nodes3
  let nodes5 := sortStable vLe nodes4
  if nodes5.any (fun n => n.section_number == 1) then sortStable vEntryLe nodes5
  else nodes5

/-! ### `lint_story.py`: duplicate choices, reachability, noise, exit codes -/

structure LChoice where
  text : String
  next : String
  deriving DecidableEq

/-- A node as the linter reads it (only `id`, `text` and `choices` are used by
its checks). -/
structure LNode where
  id : String
  text : String
  choices : List LChoice
  deriving DecidableEq

/-- `[a-z0-9]` (after lowercasing). -/
def isLowerAlnum (c : Char) : Bool :=
  (97 ≤ c.toNat && c.toNat ≤ 122) || c.isDigit

/-- `re.sub(r"[^a-z0-9]+", " ", _)`: every run of other characters becomes a
single space. -/
def squashNonAlnum : Bool → List Char → List Char
  | _, [] => []
  | inRun, c :: cs =>
    if isLowerAlnum c then c :: squashNonAlnum false cs
    else if inRun then squashNonAlnum true cs
    else ' ' :: squashNonAlnum true cs

/-- `normalize_choice_text` of `lint_story.py` (also the dedupe key builder of
`story.py`, which repeats the same expression). -/
def normalize_choice_text (text : String) : String :=
  ⟨pyStripWs (squashNonAlnum false (text.data.map Char.toLower))⟩

def lchoiceKey (c : LChoice) : String × String :=
  (normalize_choice_text c.text, c.next)

/-- The per-node duplicate scan of `choice_duplicates`. -/
def nodeDups (nid : String) : List (String × String) → List LChoice →
    List (String × String × String)
  | _, [] => []
  | seen, c :: cs =>
    if seen.contains (lchoiceKey c) then (nid, c.text, c.next) :: nodeDups nid seen cs
    else nodeDups nid (lchoiceKey c :: seen) cs

/-- `choice_duplicates` of `lint_story.py`. -/
def choice_duplicates (nodes : List LNode) : List (String × String × String) :=
  (nodes.map (fun n => nodeDups n.id [] n.choices)).flatten

/-- The per-node first-occurrence filter of `fix_duplicate_choices`, counting
the removed entries. -/
def dedupeChoicesL : List (String × String) → List LChoice → List LChoice × Nat
  | _, [] => ([], 0)
  | seen, c :: cs =>
    if seen.contains (lchoiceKey c) then
      let p := dedupeChoicesL seen cs
      (p.1, p.2 + 1)
    else
      let p := dedupeChoicesL (lchoiceKey c :: seen) cs
      (c :: p.1, p.2)

/-- `fix_duplicate_choices` of `lint_story.py`: per node keep the first choice
of each `(normalized text, next)` key and cap at 4; returns the new nodes and
the removal count. -/
def fix_duplicate_choices : List LNode → List LNode × Nat
  | [] => ([], 0)
  | n :: ns =>
    let p := dedupeChoicesL [] n.choices
    let rest := fix_duplicate_choices ns
    ({ n with choices := p.1.take 4 } :: rest.1, p.2 + rest.2)

/-- `graph.get(cur, [])`: edges of the LAST node carrying the id (dict
comprehension semantics), restricted to existing ids. -/
def graphEdges (nodes : List LNode) (idset : List String) (i : String) : List String :=
  match nodes.reverse.find? (fun n => n.id == i) with
  | some n => (n.choices.map (fun c => c.next)).filter (fun x => idset.contains x)
  | none => []

/-- The BFS of `reachable_ratio`.  Every queue entry was enqueued with a fresh
`seen` insertion, and `seen` only holds node ids, so `nodes.length + 1` fuel is
never exhausted. -/
def bfsLoop (edges : String → List String) : Nat → List String → List String → List String
  | 0, _, seen => seen
  | _ + 1, [], seen => seen
  | fuel + 1, cur :: rest, seen =>
    let p := (edges cur).foldl
      (fun (acc : List String × List String) nxt =>
        if acc.1.contains nxt then acc else (nxt :: acc.1, acc.2 ++ [nxt]))
      (seen, [])
    bfsLoop edges fuel (rest ++ p.2) p.1

/-- `reachable_ratio` of `lint_story.py` (the float ratio is modelled as the
exact rational `|seen| / |nodes|`). -/
def reachable_ratio (nodes : List LNode) : ℚ × Nat × Nat :=
  match nodes with
  | [] => (0, 0, 0)
  | n0 :: _ =>
    let idset := nodes.map (fun n => n.id)
    let seen := bfsLoop (graphEdges nodes idset) (nodes.length + 1) [n0.id] [n0.id]
    ((seen.length : ℚ) / (nodes.length : ℚ), seen.length, nodes.length)

/-- The `allowed` character set of `max_noise_ratio`. -/
def allowedNoiseChars : List Char :=
  ("abcdefghijklmnopqrstuvwxyzABCDEFGHIJKLMNOPQRSTUVWXYZ0123456789" ++
   " \t\n\r.,!?;:\x27\"()-[]\x7b\x7d_/\\@#$%^&*+=<>|`~€£").data

/-- `max_noise_ratio` of `lint_story.py` (the reported noisiest node id is a
print-only detail, omitted). -/
def max_noise_ratio (nodes : List LNode) : ℚ :=
  nodes.foldl
    (fun acc n =>
      if n.text = "" then acc
      else
        let bad := (n.text.data.filter (fun ch => !allowedNoiseChars.contains ch)).length
        let r : ℚ := (bad : ℚ) / (n.text.data.length : ℚ)
        if acc < r then r else acc)
    0

/-- The linter's input: the three load-failure shapes `main` exits 2 on, or a
loaded node list. -/
inductive LintInput where
  | missingFile : LintInput
  | invalidJson : LintInput
  | nonListRoot : LintInput
  | store : List LNode → LintInput

/-- The check section of `main`: the three PASS/FAIL outcomes in print order
and the return code (`1 if failed else 0`). -/
def lintChecks (nodes : List LNode) (minReach maxNoise : ℚ) (fix : Bool) :
    List Bool × Nat :=
  let nodes1 := if fix then (fix_duplicate_choices nodes).1 else nodes
  let dupsOk := (choice_duplicates nodes1).isEmpty
  let ratioOk := !(decide ((reachable_ratio nodes1).1 < minReach))
  let noiseOk := !(decide (maxNoise < max_noise_ratio nodes1))
  ([dupsOk, ratioOk, noiseOk], if dupsOk && ratioOk && noiseOk then 0 else 1)

/-- `main` of `lint_story.py`: return code 2 on any load failure, else run the
checks (CLI parsing is abstracted into the threshold/fix parameters; the float
thresholds are modelled as rationals). -/
def lint_main : LintInput → ℚ → ℚ → Bool → List Bool × Nat
  | .missingFile, _, _, _ => ([], 2)
  | .invalidJson, _, _, _ => ([], 2)
  | .nonListRoot, _, _, _ => ([], 2)
  | .store nodes, minReach, maxNoise, fix => lintChecks nodes minReach maxNoise fix

/-! ### `story.py`: `StoryEngine` normalization, load and lookup -/

structure EChoice where
  text : String
  next : String
  deriving DecidableEq

/-- A raw/normalized story node for the engine (`ascii_art`, `effects`,
`random_event_pool` and the opaque per-choice `requires`/`effects` maps are
pass-through fields outside the claims, omitted). -/
structure ENode where
  id : String
  section_number : Int
  title : String
  text : String
  node_type : String
  choices : List EChoice
  deriving DecidableEq

/-- Python `int(str, 10)` with a default (`_as_int`): optional sign and
digits, surrounding whitespace allowed. -/
def parseIntD (s : List Char) (dflt : Int) : Int :=
  match pyStripWs s with
  | '-' :: ds => if !ds.isEmpty && ds.all Char.isDigit then -(digitsVal ds) else dflt
  | '+' :: ds => if !ds.isEmpty && ds.all Char.isDigit then digitsVal ds else dflt
  | ds => if !ds.isEmpty && ds.all Char.isDigit then digitsVal ds else dflt

/-- The choice normalization of `_normalize_node`: first 4 raw choices, a
blank `next` drops the choice, blank text becomes "Continue", and a repeated
`(normalized text, next)` key is popped again (net: dropped). -/
def normEChoices : List (String × String) → List EChoice → List EChoice
  | _, [] => []
  | seen, c :: rest =>
    if strStrip c.next = "" then normEChoices seen rest
    else
      let ctext := if strStrip c.text = "" then "Continue" else strStrip c.text
      let key := (normalize_choice_text ctext, strStrip c.next)
      if seen.contains key then normEChoices seen rest
      else { text := ctext, next := strStrip c.next } :: normEChoices (key :: seen) rest

/-- `StoryEngine._normalize_node`. -/
def _normalize_node (raw : ENode) : ENode :=
  let nodeId :=
    if strStrip raw.id = "" then
      (if raw.section_number > 0 then "section_" ++ toString raw.section_number
       else "section_0")
    else strStrip raw.id
  let sec1 :=
    if raw.section_number ≤ 0 && "section_".isPrefixOf nodeId then
      parseIntD (lastUnderscoreSeg nodeId.data) 0
    else raw.section_number
  let choices := normEChoices [] (raw.choices.take 4)
  let nt0 := if strStrip raw.node_type = "" then "normal" else strStrip raw.node_type
  let nt1 :=
    if VALID_NODE_TYPES.contains nt0 then nt0
    else if !choices.isEmpty then "normal" else "ending_neutral"
  let nt2 := if nt1 = "normal" && choices.isEmpty then "ending_neutral" else nt1
  { id := nodeId
    section_number := if sec1 > 0 then sec1 else 0
    title := if strStrip raw.title = "" then "Untitled Scene" else strStrip raw.title
    text := raw.text
    node_type := nt2
    choices := choices }

/-- The single node of `StoryEngine._default_story`. -/
def defaultStoryNode : ENode :=
  { id := "section_1"
    section_number := 1
    title := "Cold Start"
    text := "No story file was found. Add story.json to continue."
    node_type := "ending_neutral"
    choices := [] }

def _default_story : List ENode := [defaultStoryNode]

/-- The sort key `(section_number, id)` of `StoryEngine.load`. -/
def eLe (a b : ENode) : Bool :=
  a.section_number < b.section_number ||
  (a.section_number == b.section_number && charsLe a.id.data b.id.data)

/-- The engine state after `load`: the list `node_by_id` was built from
(pre-sort insertion order; the dict keeps the last node per id) and the sorted
`self.nodes`. -/
structure EngineState where
  byIdSrc : List ENode
  nodes : List ENode
  deriving DecidableEq

/-- `StoryEngine.load`: `none` models an unreadable/unparseable/non-list
store. -/
def engineLoad (data : Option (List ENode)) : EngineState :=
  let nodes0 :=
    match data with
    | none => _default_story
    | some l =>
      if l.isEmpty then _default_story
      else
        let kept := (l.map _normalize_node).filter (fun n => n.id ≠ "")
        if kept.isEmpty then _default_story else kept
  { byIdSrc := nodes0, nodes := sortStable eLe nodes0 }

/-- `StoryEngine.get_node` (`node_by_id` keeps the last node per id). -/
def get_node (st : EngineState) (nodeId : String) : Option ENode :=
  st.byIdSrc.reverse.find? (fun n => n.id == nodeId)

/-- `StoryEngine.get_entry_node`. -/
def get_entry_node (st : EngineState) : ENode :=
  match get_node st "section_1" with
  | some n => n
  | none =>
    match st.nodes with
    | n :: _ => n
    | [] => defaultStoryNode

/-! ### Concrete scenario inputs -/

/-- Scenario B of the spec: sections {1, 2, 3, 7}, section 1 pointing at the
missing destination 5. -/
def scenB : List BSection :=
  [ { section_number := 1, text := "You set out.",
      choices := [{ text := "Go onward.", destination := 5 }], node_type := "normal" },
    { section_number := 2, text := "A quiet road.", choices := [], node_type := "ending_neutral" },
    { section_number := 3, text := "A fork.", choices := [], node_type := "ending_neutral" },
    { section_number := 7, text := "A bridge.", choices := [], node_type := "ending_neutral" } ]

/-- Scenario C of the spec: section 1 pointing at the missing destination 50
with nothing within distance 2. -/
def scenC : List BSection :=
  [ { section_number := 1, text := "You set out.",
      choices := [{ text := "Onward.", destination := 50 }], node_type := "normal" } ]

/-- Scenario A of the spec: the raw duplicate-clause text. -/
def scenarioAText : String :=
  "You reach a fork. Turn to 12 if you continue. Turn to 12 if you continue."

/-- A graph of one death ending: no `ending_neutral` and no `ending_win`. -/
def deathPayload : Payload :=
  { section_number := 1, title := "The End", text := "you are killed",
    node_type := "ending_death", choices := [] }

/-- A well-formed one-section payload for witnesses. -/
def pay1 : Payload :=
  { section_number := 1, title := "Trailhead", text := "A path begins.",
    node_type := "normal", choices := [{ text := "Take the path.", destination := 2 }] }

/-- The node `build_story_finalize` assembles from `pay1`. -/
def node1Expected : RNode :=
  { id := "section_1", section_number := 1, title := "Trailhead",
    text := "A path begins.", node_type := "normal",
    choices := [{ text := "Take the path.", next := "section_2" }] }

/-- A single `ending_neutral` node for the ensure-win witness. -/
def neutralRNode : RNode :=
  { id := "section_9", section_number := 9, title := "Rest", text := "calm air",
    node_type := "ending_neutral", choices := [] }

/-- A persisted node typed `normal` with no choices: `auto_fix` preserves it. -/
def badVNode : VNode :=
  { id := "section_1", section_number := 1, title := "T", text := "calm steady words",
    node_type := "normal", choices := [] }

/-! ## Theorems -/

/-! ### The stable sort is a permutation -/

theorem insertLe_perm {α : Type} (le : α → α → Bool) (s : α) (l : List α) :
    (insertLe le s l).Perm (s :: l) := by
  induction l with
  | nil => simp [insertLe]
  | cons t ts ih =>
    simp only [insertLe]
    split
    · exact (ih.cons t).trans (List.Perm.swap s t ts)
    · exact List.Perm.refl _

theorem sortStableAux_perm {α : Type} (le : α → α → Bool) (l : List α) :
    ∀ acc, (sortStableAux le acc l).Perm (acc ++ l) := by
  induction l with
  | nil => intro acc; simp [sortStableAux]
  | cons x xs ih =>
    intro acc
    have h2 : (insertLe le x acc ++ xs).Perm (acc ++ x :: xs) :=
      ((insertLe_perm le x acc).append_right xs).trans List.perm_middle.symm
    exact (ih (insertLe le x acc)).trans h2

theorem sortStable_perm {α : Type} (le : α → α → Bool) (l : List α) :
    (sortStable le l).Perm l := by
  simpa [sortStable] using sortStableAux_perm le l []

theorem mem_sortStable {α : Type} (le : α → α → Bool) (l : List α) (a : α) :
    a ∈ sortStable le l ↔ a ∈ l :=
  (sortStable_perm le l).mem_iff

/-! ### C2: the ensure-win repair step -/

theorem hasWin_iff (l : List RNode) :
    hasWin l = true ↔ ∃ n ∈ l, n.node_type = "ending_win" := by
  simp [hasWin, List.any_eq_true]

theorem convertFirst_of_exists (p : RNode → Bool) (l : List RNode)
    (h : ∃ n ∈ l, p n = true) :
    ∃ m ∈ convertFirst p l, m.node_type = "ending_win" := by
  induction l with
  | nil => simp at h
  | cons a rest ih =>
    by_cases hp : p a = true
    · exact ⟨{ a with node_type := "ending_win" }, by simp [convertFirst, hp], rfl⟩
    · obtain ⟨n, hn, hpn⟩ := h
      rcases List.mem_cons.mp hn with h' | hmem
      · subst h'; exact absurd hpn hp
      · obtain ⟨m, hm, hw⟩ := ih ⟨n, hmem, hpn⟩
        refine ⟨m, ?_, hw⟩
        have hcf : convertFirst p (a :: rest) = a :: convertFirst p rest := by
          simp [convertFirst, hp]
        rw [hcf]
        exact List.mem_cons_of_mem a hm

theorem convertFirst_eq_or_win (p : RNode → Bool) (l : List RNode) :
    convertFirst p l = l ∨ ∃ m ∈ convertFirst p l, m.node_type = "ending_win" := by
  induction l with
  | nil => left; rfl
  | cons a rest ih =>
    by_cases hp : p a = true
    · right
      exact ⟨{ a with node_type := "ending_win" }, by simp [convertFirst, hp], rfl⟩
    · rcases ih with heq | ⟨m, hm, hw⟩
      · left; simp [convertFirst, hp, heq]
      · right
        refine ⟨m, ?_, hw⟩
        have hcf : convertFirst p (a :: rest) = a :: convertFirst p rest := by
          simp [convertFirst, hp]
        rw [hcf]
        exact List.mem_cons_of_mem a hm

/-- C2 (amended): after the ensure-win block of `build_story`
(`repair_story_text.py`, lines 644-655), the output contains an `ending_win`
node whenever the input contains an `ending_neutral` or `ending_win` node.
The cue-preferred conversion additionally requires "the end" in the node's
text, and a graph with neither neutral nor win nodes gains no win node (the
fixed-id synthesis exists only in `validate.auto_fix`). -/
theorem ensure_win_with_neutral_present (nodes : List RNode)
    (h : ∃ n ∈ nodes, n.node_type = "ending_neutral" ∨ n.node_type = "ending_win") :
    ∃ m ∈ ensureWin nodes, m.node_type = "ending_win" := by
  unfold ensureWin
  by_cases hw : hasWin nodes = true
  · rw [if_pos hw]
    exact (hasWin_iff nodes).mp hw
  · rw [if_neg hw]
    have hneut : ∃ n ∈ nodes, n.node_type = "ending_neutral" := by
      obtain ⟨n, hn, hor⟩ := h
      rcases hor with h1 | h2
      · exact ⟨n, hn, h1⟩
      · exact absurd ((hasWin_iff nodes).mpr ⟨n, hn, h2⟩) hw
    by_cases hw1 : hasWin (convertFirst winCuePred nodes) = true
    · rw [if_pos hw1]
      exact (hasWin_iff _).mp hw1
    · rw [if_neg hw1]
      have hneut1 : ∃ n ∈ convertFirst winCuePred nodes, n.node_type = "ending_neutral" := by
        rcases convertFirst_eq_or_win winCuePred nodes with heq | hwin
        · rw [heq]; exact hneut
        · exact absurd ((hasWin_iff _).mpr hwin) hw1
      obtain ⟨n, hn, hne⟩ := hneut1
      exact convertFirst_of_exists _ _ ⟨n, hn, by simp [hne]⟩

/-- C2 witness: a single `ending_neutral` node is converted. -/
theorem ensure_win_with_neutral_present_witness :
    ∃ m ∈ ensureWin [neutralRNode], m.node_type = "ending_win" :=
  ensure_win_with_neutral_present [neutralRNode] ⟨neutralRNode, by simp, Or.inl rfl⟩

/-- C2 counterexample: a graph of one `ending_death` node stays without any
`ending_win` node after the whole finalize stage, refuting "for every input
graph the post-repair output contains an ending_win node". -/
theorem build_story_all_death_no_win_counterexample :
    (build_story_finalize [deathPayload]).all (fun n => n.node_type != "ending_win") = true ∧
    (build_story_finalize [deathPayload]).length = 1 := by
  decide

/-! ### C7: `token_to_int` and the OCR table -/

theorem map_ocrMappedDigit_of_digits (l : List Char) :
    l.all Char.isDigit = true → l.map ocrMappedDigit = l := by
  induction l with
  | nil => intro _; rfl
  | cons a r ih =>
    intro h
    simp only [List.all_cons, Bool.and_eq_true] at h
    simp [ocrMappedDigit, h.1, ih h.2]

theorem ocrChars_all_mapped (cs : List Char)
    (h : cs.all (fun c => c.isDigit || (ocrLookup c).isSome) = true) :
    ocrChars cs = some (cs.map ocrMappedDigit) := by
  induction cs with
  | nil => rfl
  | cons c rest ih =>
    simp only [List.all_cons, Bool.and_eq_true] at h
    obtain ⟨hc, hrest⟩ := h
    by_cases hd : c.isDigit
    · simp [ocrChars, hd, ih hrest, ocrMappedDigit]
    · have hsome : (ocrLookup c).isSome = true := by
        rcases Bool.or_eq_true_iff.mp hc with h1 | h1
        · exact absurd h1 hd
        · exact h1
      obtain ⟨d, hdl⟩ := Option.isSome_iff_exists.mp hsome
      simp [ocrChars, hd, hdl, ih hrest, ocrMappedDigit]

theorem ocrChars_unmapped (cs : List Char)
    (h : cs.any (fun c => !c.isDigit && (ocrLookup c).isNone) = true) :
    ocrChars cs = none := by
  induction cs with
  | nil => simp at h
  | cons c rest ih =>
    simp only [List.any_cons, Bool.or_eq_true] at h
    rcases h with hc | hrest
    · simp only [Bool.and_eq_true, Bool.not_eq_true'] at hc
      obtain ⟨hd, hn⟩ := hc
      have hnone : ocrLookup c = none := Option.isNone_iff_eq_none.mp hn
      simp [ocrChars, hd, hnone]
    · by_cases hd : c.isDigit
      · simp [ocrChars, hd, ih hrest]
      · cases hl : ocrLookup c with
        | none => simp [ocrChars, hd, hl]
        | some d => simp [ocrChars, hd, hl, ih hrest]

/-- C7: for a non-empty token, if every character is a digit or maps through
`DIGIT_OCR_MAP` to a digit, `token_to_int` parses the integer formed by the
mapped digits; if any character has no mapping, it returns `none`. -/
theorem token_to_int_ocr_table (t : String) (h : t.data ≠ []) :
    (t.data.all (fun c => c.isDigit || (ocrLookup c).isSome) = true →
        token_to_int t = some (digitsVal (t.data.map ocrMappedDigit))) ∧
    (t.data.any (fun c => !c.isDigit && (ocrLookup c).isNone) = true →
        token_to_int t = none) := by
  constructor
  · intro hall
    by_cases hd : t.data.all Char.isDigit = true
    · unfold token_to_int
      rw [if_pos ⟨h, hd⟩, map_ocrMappedDigit_of_digits t.data hd]
    · have hoc := ocrChars_all_mapped t.data hall
      unfold token_to_int
      rw [if_neg (by intro hcon; exact hd hcon.2), hoc]
      cases hm : t.data.map ocrMappedDigit with
      | nil => exact absurd (List.map_eq_nil_iff.mp hm) h
      | cons x xs => rfl
  · intro hany
    have hd : ¬(t.data ≠ [] ∧ t.data.all Char.isDigit = true) := by
      rintro ⟨_, hall⟩
      obtain ⟨c, hc, hcp⟩ := List.any_eq_true.mp hany
      have hdig := List.all_eq_true.mp hall c hc
      simp [hdig] at hcp
    unfold token_to_int
    rw [if_neg hd, ocrChars_unmapped t.data hany]

/-- C7 witness: `"4B"` maps to 48 through the table, `"4x"` is discarded. -/
theorem token_to_int_ocr_table_witness :
    token_to_int "4B" = some 48 ∧ token_to_int "4x" = none :=
  ⟨(token_to_int_ocr_table "4B" (by decide)).1 (by decide),
   (token_to_int_ocr_table "4x" (by decide)).2 (by decide)⟩

/-! ### C9: the duplicate-choice fixer is idempotent -/

theorem dedupeChoicesL_keys (cs : List LChoice) : ∀ seen : List (String × String),
    ((dedupeChoicesL seen cs).1.map lchoiceKey).Nodup ∧
      ∀ k ∈ (dedupeChoicesL seen cs).1.map lchoiceKey, k ∉ seen := by
  induction cs with
  | nil => intro seen; simp [dedupeChoicesL]
  | cons c rest ih =>
    intro seen
    by_cases hm : lchoiceKey c ∈ seen
    · have hcont : seen.contains (lchoiceKey c) = true := by simpa using hm
      simpa only [dedupeChoicesL, hcont, if_true] using ih seen
    · have hcont : seen.contains (lchoiceKey c) = false := by simpa using hm
      obtain ⟨hnd, hdisj⟩ := ih (lchoiceKey c :: seen)
      simp only [dedupeChoicesL, hcont, Bool.false_eq_true, if_false, List.map_cons,
        List.nodup_cons, List.mem_cons]
      refine ⟨⟨fun hk => (hdisj _ hk) (by simp), hnd⟩, ?_⟩
      intro k hk
      rcases hk with rfl | hk
      · exact hm
      · intro hks
        exact (hdisj k hk) (by simp [hks])

theorem dedupeChoicesL_of_nodup (cs : List LChoice) : ∀ seen : List (String × String),
    (cs.map lchoiceKey).Nodup → (∀ k ∈ cs.map lchoiceKey, k ∉ seen) →
    dedupeChoicesL seen cs = (cs, 0) := by
  induction cs with
  | nil => intro seen _ _; rfl
  | cons c rest ih =>
    intro seen hnd hdisj
    have hc : lchoiceKey c ∉ seen := hdisj _ (by simp)
    have hcont : seen.contains (lchoiceKey c) = false := by simpa using hc
    rw [List.map_cons, List.nodup_cons] at hnd
    obtain ⟨hhead, hrestnd⟩ := hnd
    have hrest := ih (lchoiceKey c :: seen) hrestnd (by
      intro k hk
      simp only [List.mem_cons]
      push_neg
      exact ⟨fun he => hhead (he ▸ hk), hdisj k (by simp [hk])⟩)
    simp [dedupeChoicesL, hcont, hrest, hc]

/-- C9: `fix_duplicate_choices` is idempotent: a second application removes 0
duplicates and returns the node list unchanged. -/
theorem fix_duplicate_choices_idempotent (nodes : List LNode) :
    fix_duplicate_choices (fix_duplicate_choices nodes).1 =
      ((fix_duplicate_choices nodes).1, 0) := by
  induction nodes with
  | nil => rfl
  | cons n ns ih =>
    have hkeys : (((dedupeChoicesL [] n.choices).1.take 4).map lchoiceKey).Nodup := by
      rw [List.map_take]
      exact List.Nodup.sublist (List.take_sublist 4 _) (dedupeChoicesL_keys n.choices []).1
    have hsecond : dedupeChoicesL [] ((dedupeChoicesL [] n.choices).1.take 4) =
        ((dedupeChoicesL [] n.choices).1.take 4, 0) :=
      dedupeChoicesL_of_nodup _ [] hkeys (by intro k _; simp)
    have hfix_cons : fix_duplicate_choices (n :: ns) =
        ({ n with choices := (dedupeChoicesL [] n.choices).1.take 4 } ::
           (fix_duplicate_choices ns).1,
         (dedupeChoicesL [] n.choices).2 + (fix_duplicate_choices ns).2) := rfl
    rw [hfix_cons]
    have hstep : fix_duplicate_choices
        ({ n with choices := (dedupeChoicesL [] n.choices).1.take 4 } ::
          (fix_duplicate_choices ns).1) =
        ({ { n with choices := (dedupeChoicesL [] n.choices).1.take 4 } with
            choices :=
              (dedupeChoicesL [] ((dedupeChoicesL [] n.choices).1.take 4)).1.take 4 } ::
           (fix_duplicate_choices ((fix_duplicate_choices ns).1)).1,
         (dedupeChoicesL [] ((dedupeChoicesL [] n.choices).1.take 4)).2 +
           (fix_duplicate_choices ((fix_duplicate_choices ns).1)).2) := rfl
    rw [hstep, hsecond, ih]
    simp [List.take_take]

/-! ### C4: stub synthesis fires exactly when nothing is within distance 2 -/

/-- C4: stub synthesis in `fix_broken_links` fires if and only if the dangling
destination has no existing section number within absolute distance 2, the
stub appended is exactly `stubSection dest` (section_number, placeholder text,
empty choices, `ending_neutral`), otherwise the stub list is unchanged; and
Scenario C evaluates as specified. -/
theorem stub_synthesis_iff_no_near :
    (∀ (src : Int) (st : RepairState) (c : BChoice),
      ((processChoice src st c).2.stubs = st.stubs ++ [stubSection c.destination] ↔
        c.destination ∉ st.existing ∧ ∀ n ∈ st.existing, ¬(|n - c.destination| ≤ 2)) ∧
      (¬(c.destination ∉ st.existing ∧ ∀ n ∈ st.existing, ¬(|n - c.destination| ≤ 2)) →
        (processChoice src st c).2.stubs = st.stubs)) ∧
    (stubSection 50).section_number = 50 ∧
    (stubSection 50).text = "[Section 50 - not found in source]" ∧
    (stubSection 50).choices = [] ∧
    (stubSection 50).node_type = "ending_neutral" ∧
    fix_broken_links scenC =
      ([{ section_number := 1, text := "You set out.",
          choices := [{ text := "Onward.", destination := 50 }], node_type := "normal" },
        stubSection 50],
       ["Created stub section 50 (referenced by section 1)"]) := by
  refine ⟨?_, rfl, rfl, rfl, rfl, by decide⟩
  intro src st c
  by_cases hmem : c.destination ∈ st.existing
  · have hred : processChoice src st c = (c, st) := by simp [processChoice, hmem]
    constructor
    · rw [hred]
      constructor
      · intro habs
        have := congrArg List.length habs
        simp at this
      · rintro ⟨hnot, _⟩
        exact absurd hmem hnot
    · intro _
      rw [hred]
  · cases hfil : st.existing.filter (fun n => |n - c.destination| ≤ 2) with
    | cons m ms =>
      have hred : (processChoice src st c).2.stubs = st.stubs := by
        unfold processChoice
        rw [if_neg hmem, hfil]
      refine ⟨⟨fun habs => ?_, fun hcond => ?_⟩, fun _ => hred⟩
      · rw [hred] at habs
        have := congrArg List.length habs
        simp at this
      · have hmf : m ∈ st.existing.filter (fun n => |n - c.destination| ≤ 2) := by
          rw [hfil]; simp
        obtain ⟨hmex, hmd⟩ := List.mem_filter.mp hmf
        exact absurd (of_decide_eq_true hmd) (hcond.2 m hmex)
    | nil =>
      have hfar : ∀ n ∈ st.existing, ¬(|n - c.destination| ≤ 2) := by
        intro n hn
        have := List.filter_eq_nil_iff.mp hfil n hn
        simpa using this
      have hred : (processChoice src st c).2.stubs = st.stubs ++ [stubSection c.destination] := by
        unfold processChoice
        rw [if_neg hmem, hfil]
      exact ⟨⟨fun _ => ⟨hmem, hfar⟩, fun _ => hred⟩, fun hcon => absurd ⟨hmem, hfar⟩ hcon⟩

/-! ### C3: the remap rule (closest first, smallest on ties) -/

theorem keyLtb_iff (a b : Int × Int) :
    keyLtb a b = true ↔ (a.1 < b.1 ∨ (a.1 = b.1 ∧ a.2 < b.2)) := by
  simp [keyLtb, Bool.or_eq_true, Bool.and_eq_true, decide_eq_true_eq]

theorem keyLtb_trans {a b c : Int × Int}
    (h1 : keyLtb a b = true) (h2 : keyLtb b c = true) : keyLtb a c = true := by
  rw [keyLtb_iff] at h1 h2 ⊢
  rcases h1 with h1 | ⟨h1e, h1l⟩ <;> rcases h2 with h2 | ⟨h2e, h2l⟩ <;> omega

theorem keyLtb_false_lt_trans {a b c : Int × Int}
    (h1 : keyLtb b a = false) (h2 : keyLtb b c = true) : keyLtb a c = true := by
  have h1' : ¬(keyLtb b a = true) := by simp [h1]
  rw [keyLtb_iff] at h1' h2 ⊢
  push_neg at h1'
  rcases h2 with h2 | ⟨h2e, h2l⟩ <;> omega

theorem pickNearest_cons (dest first r : Int) (rs : List Int) :
    pickNearest dest first (r :: rs) =
      pickNearest dest
        (if keyLtb (choice_sort_key r dest) (choice_sort_key first dest) = true
         then r else first) rs := rfl

theorem pickNearest_mem (dest : Int) (rest : List Int) :
    ∀ first, pickNearest dest first rest ∈ first :: rest := by
  induction rest with
  | nil => intro first; simp [pickNearest]
  | cons r rs ih =>
    intro first
    rw [pickNearest_cons]
    by_cases h : keyLtb (choice_sort_key r dest) (choice_sort_key first dest) = true
    · rw [if_pos h]
      rcases List.mem_cons.mp (ih r) with heq | hmem
      · rw [heq]; simp
      · simp [hmem]
    · rw [if_neg h]
      rcases List.mem_cons.mp (ih first) with heq | hmem
      · rw [heq]; simp
      · simp [hmem]

theorem pickNearest_min (dest : Int) (rest : List Int) :
    ∀ first, ∀ n ∈ first :: rest,
      keyLtb (choice_sort_key n dest)
        (choice_sort_key (pickNearest dest first rest) dest) = false := by
  induction rest with
  | nil =>
    intro first n hn
    simp only [List.mem_singleton] at hn
    subst hn
    simp only [pickNearest, List.foldl_nil]
    rw [Bool.eq_false_iff]
    intro h
    rw [keyLtb_iff] at h
    omega
  | cons r rs ih =>
    intro first n hn
    rw [pickNearest_cons]
    by_cases h : keyLtb (choice_sort_key r dest) (choice_sort_key first dest) = true
    · rw [if_pos h]
      have hr := ih r r (by simp)
      rcases List.mem_cons.mp hn with rfl | hn'
      · -- n = first; r beats first, and the result is no worse than r
        rw [Bool.eq_false_iff]
        intro habs
        exact absurd (keyLtb_trans h habs) (by simp [hr])
      · rcases List.mem_cons.mp hn' with rfl | hn''
        · exact hr
        · exact ih r n (by simp [hn''])
    · rw [if_neg h]
      have hfirst := ih first first (by simp)
      rcases List.mem_cons.mp hn with rfl | hn'
      · exact hfirst
      · rcases List.mem_cons.mp hn' with rfl | hn''
        · -- n = r; first is no worse than r, and the result no worse than first
          rw [Bool.eq_false_iff]
          intro habs
          have h' : keyLtb (choice_sort_key n dest) (choice_sort_key first dest) = false :=
            Bool.eq_false_iff.mpr h
          exact absurd (keyLtb_false_lt_trans h' habs) (by simp [hfirst])
        · exact ih first n (by simp [hn''])

/-- C3 (amended): a dangling destination with an existing section number
within absolute distance 2 is remapped to the candidate minimizing the pair
(distance, numeric value) — closest first, smallest on ties — and the appended
change-log line is exactly
"Remapped missing destination D -> R (source section S)" with NO trailing
period; in Scenario B the remap is 5 -> 3 with that exact line. -/
theorem remap_nearest_smallest_spec :
    (∀ (src : Int) (st : RepairState) (c : BChoice),
      c.destination ∉ st.existing →
      (∃ n ∈ st.existing, |n - c.destination| ≤ 2) →
      ∃ r, processChoice src st c =
          ({ c with destination := r },
           { st with report := st.report ++
               ["Remapped missing destination " ++ toString c.destination ++ " -> " ++
                 toString r ++ " (source section " ++ toString src ++ ")"] }) ∧
        r ∈ st.existing ∧ |r - c.destination| ≤ 2 ∧
        ∀ n ∈ st.existing, |n - c.destination| ≤ 2 →
          (|r - c.destination| < |n - c.destination| ∨
            (|r - c.destination| = |n - c.destination| ∧ r ≤ n))) ∧
    (fix_broken_links scenB).1 =
      [{ section_number := 1, text := "You set out.",
         choices := [{ text := "Go onward.", destination := 3 }], node_type := "normal" },
       { section_number := 2, text := "A quiet road.", choices := [],
         node_type := "ending_neutral" },
       { section_number := 3, text := "A fork.", choices := [],
         node_type := "ending_neutral" },
       { section_number := 7, text := "A bridge.", choices := [],
         node_type := "ending_neutral" }] ∧
    (fix_broken_links scenB).2 =
      ["Remapped missing destination 5 -> 3 (source section 1)"] := by
  refine ⟨?_, by decide, by decide⟩
  intro src st c hmem hnear
  cases hfil : st.existing.filter (fun n => |n - c.destination| ≤ 2) with
  | nil =>
    obtain ⟨n, hn, hd⟩ := hnear
    exact absurd (by simpa using hd) (List.filter_eq_nil_iff.mp hfil n hn)
  | cons m ms =>
    refine ⟨pickNearest c.destination m ms, ?_, ?_, ?_, ?_⟩
    · unfold processChoice
      rw [if_neg hmem, hfil]
    · have hmf : pickNearest c.destination m ms ∈
          st.existing.filter (fun n => |n - c.destination| ≤ 2) := by
        rw [hfil]; exact pickNearest_mem c.destination ms m
      exact (List.mem_filter.mp hmf).1
    · have hmf : pickNearest c.destination m ms ∈
          st.existing.filter (fun n => |n - c.destination| ≤ 2) := by
        rw [hfil]; exact pickNearest_mem c.destination ms m
      exact of_decide_eq_true (List.mem_filter.mp hmf).2
    · intro n hn hd
      have hnf : n ∈ st.existing.filter (fun n => |n - c.destination| ≤ 2) :=
        List.mem_filter.mpr ⟨hn, by simpa using hd⟩
      rw [hfil] at hnf
      have hmin := pickNearest_min c.destination ms m n hnf
      have h1 : ¬(keyLtb (choice_sort_key n c.destination)
          (choice_sort_key (pickNearest c.destination m ms) c.destination) = true) := by
        simp [hmin]
      rw [keyLtb_iff] at h1
      push_neg at h1
      simp only [choice_sort_key] at h1
      obtain ⟨hA, hB⟩ := h1
      rcases lt_or_eq_of_le hA with hlt | heq
      · exact Or.inl hlt
      · exact Or.inr ⟨heq, hB heq.symm⟩

/-- C3 counterexample: the logged line carries no trailing period, so the
claimed exact line "Remapped missing destination 5 -> 3 (source section 1)."
is never in the report. -/
theorem remap_log_line_period_counterexample :
    (fix_broken_links scenB).2 =
      ["Remapped missing destination 5 -> 3 (source section 1)"] ∧
    "Remapped missing destination 5 -> 3 (source section 1)." ∉
      (fix_broken_links scenB).2 := by
  decide

/-! ### C1: repair closes every dangling destination -/

/-- One choice step either leaves the state intact (resolvable or remapped
destination, the new destination existing already) or appends exactly one stub
and its number. -/
theorem processChoice_trichotomy (src : Int) (st : RepairState) (c : BChoice) :
    ((processChoice src st c).2.existing = st.existing ∧
      (processChoice src st c).2.stubs = st.stubs ∧
      (processChoice src st c).1.destination ∈ st.existing) ∨
    ((processChoice src st c).2.existing = st.existing ++ [c.destination] ∧
      (processChoice src st c).2.stubs = st.stubs ++ [stubSection c.destination] ∧
      (processChoice src st c).1 = c) := by
  by_cases hmem : c.destination ∈ st.existing
  · have hred : processChoice src st c = (c, st) := by simp [processChoice, hmem]
    rw [hred]
    exact Or.inl ⟨rfl, rfl, hmem⟩
  · cases hfil : st.existing.filter (fun n => |n - c.destination| ≤ 2) with
    | nil =>
      have hred : processChoice src st c =
          (c, { existing := st.existing ++ [c.destination]
                stubs := st.stubs ++ [stubSection c.destination]
                report := st.report ++
                  ["Created stub section " ++ toString c.destination ++
                    " (referenced by section " ++ toString src ++ ")"] }) := by
        unfold processChoice
        rw [if_neg hmem, hfil]
      rw [hred]
      exact Or.inr ⟨rfl, rfl, rfl⟩
    | cons m ms =>
      have hred : processChoice src st c =
          ({ c with destination := pickNearest c.destination m ms },
           { st with report := st.report ++
               ["Remapped missing destination " ++ toString c.destination ++ " -> " ++
                 toString (pickNearest c.destination m ms) ++
                 " (source section " ++ toString src ++ ")"] }) := by
        unfold processChoice
        rw [if_neg hmem, hfil]
      rw [hred]
      refine Or.inl ⟨rfl, rfl, ?_⟩
      have hmf : pickNearest c.destination m ms ∈
          st.existing.filter (fun n => |n - c.destination| ≤ 2) := by
        rw [hfil]; exact pickNearest_mem c.destination ms m
      exact (List.mem_filter.mp hmf).1

/-- The per-choice facts lifted over one section's choice list. -/
theorem processChoices_facts (src : Int) (cs : List BChoice) : ∀ st : RepairState,
    (∃ ext, (processChoices src st cs).2.existing = st.existing ++ ext) ∧
    (∀ c' ∈ (processChoices src st cs).1,
        c'.destination ∈ (processChoices src st cs).2.existing) ∧
    ((∀ b ∈ st.stubs, b.choices = [] ∧ b.section_number ∈ st.existing) →
      ∀ b ∈ (processChoices src st cs).2.stubs,
        b.choices = [] ∧ b.section_number ∈ (processChoices src st cs).2.existing) ∧
    (∀ base, st.existing = base ++ st.stubs.map (fun b => b.section_number) →
      (processChoices src st cs).2.existing =
        base ++ (processChoices src st cs).2.stubs.map (fun b => b.section_number)) := by
  induction cs with
  | nil =>
    intro st
    refine ⟨⟨[], by simp [processChoices]⟩, by simp [processChoices], ?_, ?_⟩
    · intro h b hb
      exact h b hb
    · intro base h
      exact h
  | cons c cs ih =>
    intro st
    have hred : processChoices src st (c :: cs) =
        ((processChoice src st c).1 :: (processChoices src (processChoice src st c).2 cs).1,
         (processChoices src (processChoice src st c).2 cs).2) := rfl
    obtain ⟨⟨ext2, hex2⟩, hall2, hstub2, hexinv2⟩ := ih (processChoice src st c).2
    rcases processChoice_trichotomy src st c with
      ⟨he1, hs1, hd1⟩ | ⟨he1, hs1, hc1⟩
    · rw [hred]
      refine ⟨⟨ext2, by rw [hex2, he1]⟩, ?_, ?_, ?_⟩
      · intro c' hc'
        rcases List.mem_cons.mp hc' with rfl | hmem
        · rw [hex2, he1]
          exact List.mem_append_left _ hd1
        · exact hall2 c' hmem
      · intro h
        exact hstub2 (by rw [he1, hs1]; exact h)
      · intro base h
        exact hexinv2 base (by rw [he1, hs1]; exact h)
    · rw [hred]
      refine ⟨⟨c.destination :: ext2, by rw [hex2, he1, List.append_assoc]; rfl⟩, ?_, ?_, ?_⟩
      · intro c' hc'
        rcases List.mem_cons.mp hc' with rfl | hmem
        · rw [hex2, he1, hc1]
          exact List.mem_append_left _ (by simp)
        · exact hall2 c' hmem
      · intro h
        refine hstub2 ?_
        rw [he1, hs1]
        intro b hb
        rcases List.mem_append.mp hb with hb' | hb'
        · obtain ⟨h1, h2⟩ := h b hb'
          exact ⟨h1, List.mem_append_left _ h2⟩
        · simp only [List.mem_singleton] at hb'
          subst hb'
          exact ⟨rfl, by simp [stubSection]⟩
      · intro base h
        refine hexinv2 base ?_
        rw [he1, hs1, h, List.map_append, List.append_assoc]
        rfl

/-- The facts lifted over the whole section list, plus preservation of the
section numbers. -/
theorem processSections_facts (ss : List BSection) : ∀ st : RepairState,
    (∃ ext, (processSections st ss).2.existing = st.existing ++ ext) ∧
    (∀ s' ∈ (processSections st ss).1, ∀ c ∈ s'.choices,
        c.destination ∈ (processSections st ss).2.existing) ∧
    ((∀ b ∈ st.stubs, b.choices = [] ∧ b.section_number ∈ st.existing) →
      ∀ b ∈ (processSections st ss).2.stubs,
        b.choices = [] ∧ b.section_number ∈ (processSections st ss).2.existing) ∧
    (∀ base, st.existing = base ++ st.stubs.map (fun b => b.section_number) →
      (processSections st ss).2.existing =
        base ++ (processSections st ss).2.stubs.map (fun b => b.section_number)) ∧
    ((processSections st ss).1.map (fun s => s.section_number) =
      ss.map (fun s => s.section_number)) := by
  induction ss with
  | nil =>
    intro st
    exact ⟨⟨[], by simp [processSections]⟩, by simp [processSections],
      fun h b hb => h b hb, fun base h => h, rfl⟩
  | cons s ss ih =>
    intro st
    have hred : processSections st (s :: ss) =
        ((processSection st s).1 :: (processSections (processSection st s).2 ss).1,
         (processSections (processSection st s).2 ss).2) := rfl
    have hsec : (processSection st s).2 = (processChoices s.section_number st s.choices).2 := rfl
    have hsec1 : (processSection st s).1 =
        { s with choices := (processChoices s.section_number st s.choices).1 } := rfl
    obtain ⟨⟨ext1, hex1⟩, hall1, hstub1, hexinv1⟩ :=
      processChoices_facts s.section_number s.choices st
    obtain ⟨⟨ext2, hex2⟩, hall2, hstub2, hexinv2, hnum2⟩ := ih (processSection st s).2
    rw [hred]
    refine ⟨⟨ext1 ++ ext2, ?_⟩, ?_, ?_, ?_, ?_⟩
    · rw [hex2, hsec, hex1, List.append_assoc]
    · intro s' hs' c hc
      rcases List.mem_cons.mp hs' with rfl | hmem
      · rw [hsec1] at hc
        rw [hex2, hsec]
        exact List.mem_append_left _ (hall1 c hc)
      · exact hall2 s' hmem c hc
    · intro h
      exact hstub2 (by rw [hsec]; exact hstub1 h)
    · intro base h
      exact hexinv2 base (by rw [hsec]; exact hexinv1 base h)
    · simp only [List.map_cons, hnum2, hsec1]

theorem keepLastBy_subset {α : Type} (key : α → Int) (l : List α) :
    ∀ a ∈ keepLastBy key l, a ∈ l := by
  induction l with
  | nil => simp [keepLastBy]
  | cons s rest ih =>
    intro a ha
    by_cases h : rest.any (fun t => key t == key s) = true
    · rw [show keepLastBy key (s :: rest) = keepLastBy key rest from by
        simp [keepLastBy, h]] at ha
      exact List.mem_cons_of_mem s (ih a ha)
    · rw [show keepLastBy key (s :: rest) = s :: keepLastBy key rest from by
        simp [keepLastBy, h]] at ha
      rcases List.mem_cons.mp ha with rfl | ha'
      · simp
      · exact List.mem_cons_of_mem s (ih a ha')

theorem keepLastBy_keys {α : Type} (key : α → Int) (l : List α) :
    ∀ x ∈ l.map key, x ∈ (keepLastBy key l).map key := by
  induction l with
  | nil => simp
  | cons s rest ih =>
    intro x hx
    simp only [List.map_cons, List.mem_cons] at hx
    by_cases h : rest.any (fun t => key t == key s) = true
    · rw [show keepLastBy key (s :: rest) = keepLastBy key rest from by
        simp [keepLastBy, h]]
      rcases hx with rfl | hmem
      · obtain ⟨t, ht, hkt⟩ := List.any_eq_true.mp h
        have hkt' : key t = key s := by simpa using hkt
        exact ih (key s) (hkt' ▸ List.mem_map_of_mem key ht)
      · exact ih x hmem
    · rw [show keepLastBy key (s :: rest) = s :: keepLastBy key rest from by
        simp [keepLastBy, h]]
      simp only [List.map_cons, List.mem_cons]
      rcases hx with rfl | hmem
      · exact Or.inl rfl
      · exact Or.inr (ih x hmem)

/-- C1: after `fix_broken_links`, every choice of every output section refers
to a section number present in the output — no dangling edge survives repair,
whether closed by remapping or by stub synthesis. -/
theorem fix_broken_links_no_dangling (sections : List BSection) :
    ∀ s ∈ (fix_broken_links sections).1, ∀ c ∈ s.choices,
      c.destination ∈ (fix_broken_links sections).1.map (fun t => t.section_number) := by
  intro s hs c hc
  obtain ⟨⟨ext, hext⟩, hdests, hstubinv, hexinv, hnums⟩ :=
    processSections_facts sections
      { existing := sections.map (fun t => t.section_number), stubs := [], report := [] }
  have hout : (fix_broken_links sections).1 =
      sortStable bsecLe
        (keepLast (processSections
            { existing := sections.map (fun t => t.section_number), stubs := [],
              report := [] } sections).1 ++
          (processSections
            { existing := sections.map (fun t => t.section_number), stubs := [],
              report := [] } sections).2.stubs) := rfl
  have hs' := (mem_sortStable _ _ _).mp (hout ▸ hs)
  have hstubs := hstubinv (by intro b hb; simp at hb)
  have hfinal_ex := hexinv (sections.map (fun t => t.section_number)) (by simp)
  have hdest : c.destination ∈
      (processSections
        { existing := sections.map (fun t => t.section_number), stubs := [],
          report := [] } sections).2.existing := by
    rcases List.mem_append.mp hs' with hkl | hstub
    · exact hdests s (keepLastBy_subset _ _ s hkl) c hc
    · obtain ⟨hch, _⟩ := hstubs s hstub
      rw [hch] at hc
      simp at hc
  rw [hfinal_ex] at hdest
  have hin : c.destination ∈
      (keepLast (processSections
          { existing := sections.map (fun t => t.section_number), stubs := [],
            report := [] } sections).1 ++
        (processSections
          { existing := sections.map (fun t => t.section_number), stubs := [],
            report := [] } sections).2.stubs).map (fun t => t.section_number) := by
    rw [List.map_append]
    rcases List.mem_append.mp hdest with hbase | hstubnum
    · refine List.mem_append_left _ (keepLastBy_keys _ _ c.destination ?_)
      rw [hnums]
      exact hbase
    · exact List.mem_append_right _ hstubnum
  rw [hout]
  exact ((sortStable_perm bsecLe _).map (fun t => t.section_number)).mem_iff.mpr hin

/-- C1 witness: in Scenario B the remapped destination 3 is in the output. -/
theorem fix_broken_links_no_dangling_witness :
    (3 : Int) ∈ (fix_broken_links scenB).1.map (fun t => t.section_number) :=
  fix_broken_links_no_dangling scenB
    { section_number := 1, text := "You set out.",
      choices := [{ text := "Go onward.", destination := 3 }], node_type := "normal" }
    (by decide)
    { text := "Go onward.", destination := 3 }
    (by decide)

/-! ### C5: persisted id format and the node-type/choices biconditional -/

theorem infer_node_type_not_normal (text : String) :
    infer_node_type text false ≠ "normal" := by
  unfold infer_node_type
  rw [if_neg Bool.false_ne_true]
  show (if (death_terms.any fun t => strContains (strLower text) t) = true then "ending_death"
    else if (win_terms.any fun t => strContains (strLower text) t) = true then "ending_win"
    else "ending_neutral") ≠ "normal"
  split
  · decide
  · split
    · decide
    · decide

theorem assembleNode_ok (p : Payload) (h : p.node_type = "normal" → p.choices ≠ []) :
    (assembleNode p).id = "section_" ++ toString (assembleNode p).section_number ∧
    ((assembleNode p).node_type = "normal" ↔ (assembleNode p).choices ≠ []) := by
  by_cases hc : p.choices = []
  · refine ⟨rfl, ?_⟩
    have hnot : p.node_type ≠ "normal" := fun hn => (h hn) hc
    unfold assembleNode
    simp only [hc, List.take_nil, List.map_nil, List.isEmpty_nil, if_true, Bool.not_true,
      ne_eq, not_true_eq_false, iff_false]
    intro habs
    by_cases hv : VALID_NODE_TYPES.contains p.node_type = true
    · rw [if_pos hv] at habs
      exact hnot habs
    · rw [if_neg hv] at habs
      exact infer_node_type_not_normal p.text habs
  · refine ⟨rfl, ?_⟩
    have hcc : (p.choices.take 4).map (fun c =>
        ({ text := ⟨c.text.data.take 60⟩
           next := "section_" ++ toString c.destination } : RChoice)) ≠ [] := by
      simp [List.map_eq_nil_iff, List.take_eq_nil_iff, hc]
    unfold assembleNode
    simp only [List.isEmpty_eq_true, hcc, if_false, ne_eq, not_false_eq_true, iff_true]

theorem convertFirst_pres_ok (p : RNode → Bool)
    (hp : ∀ n, p n = true → n.node_type = "ending_neutral") :
    ∀ l : List RNode,
      (∀ n ∈ l, n.id = "section_" ++ toString n.section_number ∧
          (n.node_type = "normal" ↔ n.choices ≠ [])) →
      ∀ n ∈ convertFirst p l,
        n.id = "section_" ++ toString n.section_number ∧
          (n.node_type = "normal" ↔ n.choices ≠ []) := by
  intro l
  induction l with
  | nil => simp [convertFirst]
  | cons a rest ih =>
    intro h n hn
    by_cases hpa : p a = true
    · rw [show convertFirst p (a :: rest) = { a with node_type := "ending_win" } :: rest from
        by simp [convertFirst, hpa]] at hn
      rcases List.mem_cons.mp hn with rfl | hmem
      · obtain ⟨hid, hiff⟩ := h a (by simp)
        have hneu := hp a hpa
        have hach : a.choices = [] := by
          by_contra hne
          have hx := hiff.mpr hne
          rw [hneu] at hx
          exact absurd hx (by decide)
        refine ⟨hid, ?_⟩
        constructor
        · intro habs
          exact absurd (show ("ending_win" : String) = "normal" from habs) (by decide)
        · intro hne
          exact absurd hach hne
      · exact h n (List.mem_cons_of_mem a hmem)
    · rw [show convertFirst p (a :: rest) = a :: convertFirst p rest from
        by simp [convertFirst, hpa]] at hn
      rcases List.mem_cons.mp hn with rfl | hmem
      · exact h n (by simp)
      · exact ih (fun m hm => h m (List.mem_cons_of_mem a hm)) n hmem

theorem ensureWin_pres_ok (l : List RNode)
    (h : ∀ n ∈ l, n.id = "section_" ++ toString n.section_number ∧
        (n.node_type = "normal" ↔ n.choices ≠ [])) :
    ∀ n ∈ ensureWin l,
      n.id = "section_" ++ toString n.section_number ∧
        (n.node_type = "normal" ↔ n.choices ≠ []) := by
  unfold ensureWin
  by_cases hw : hasWin l = true
  · rw [if_pos hw]
    exact h
  · rw [if_neg hw]
    have h1 := convertFirst_pres_ok winCuePred
      (fun n hn => by
        simp only [winCuePred, Bool.and_eq_true] at hn
        simpa using hn.1.1) l h
    by_cases hw1 : hasWin (convertFirst winCuePred l) = true
    · rw [if_pos hw1]
      exact h1
    · rw [if_neg hw1]
      exact convertFirst_pres_ok (fun n => n.node_type == "ending_neutral")
        (fun n hn => by simpa using hn) _ h1

/-- C5 (amended): every node persisted by the repair builder
(`repair_story_text.py`, lines 604-657) has `id == "section_" +
str(section_number)` and `node_type == "normal"` iff its choice list is
non-empty, provided no input payload pairs type "normal" with an empty choice
list (which the extraction stage guarantees: `infer_node_type` types a payload
"normal" exactly when it has choices).  The validator's `auto_fix` enforces
only the forward direction, see the counterexample. -/
theorem persisted_id_and_type_invariant (payloads : List Payload)
    (h : ∀ p ∈ payloads, p.node_type = "normal" → p.choices ≠ []) :
    ∀ node ∈ build_story_finalize payloads,
      node.id = "section_" ++ toString node.section_number ∧
      (node.node_type = "normal" ↔ node.choices ≠ []) := by
  have hbase : ∀ n ∈ (sortStable payLe (keepLastPayload payloads)).map assembleNode,
      n.id = "section_" ++ toString n.section_number ∧
        (n.node_type = "normal" ↔ n.choices ≠ []) := by
    intro n hn
    obtain ⟨p, hp, rfl⟩ := List.mem_map.mp hn
    exact assembleNode_ok p (h p (keepLastBy_subset _ _ p ((mem_sortStable _ _ _).mp hp)))
  intro node hnode
  refine ensureWin_pres_ok _ ?_ node hnode
  intro n hn
  split at hn
  · exact hbase n ((mem_sortStable _ _ _).mp ((mem_sortStable _ _ _).mp hn))
  · exact hbase n ((mem_sortStable _ _ _).mp hn)

/-- C5 witness: the single well-formed payload assembles to a node satisfying
both invariants. -/
theorem persisted_id_and_type_invariant_witness :
    node1Expected.id = "section_" ++ toString node1Expected.section_number ∧
    (node1Expected.node_type = "normal" ↔ node1Expected.choices ≠ []) :=
  persisted_id_and_type_invariant [pay1] (by decide) node1Expected (by decide)

/-- C5 counterexample: `validate.auto_fix` persists a node whose declared type
is "normal" although it has no choices (the type-fix lines only force "normal"
when choices are present), violating "a node with no choices is never typed
normal" for the validator's persisted output. -/
theorem auto_fix_choiceless_normal_counterexample :
    badVNode ∈ auto_fix [badVNode] ∧
    badVNode.node_type = "normal" ∧ badVNode.choices = [] := by
  decide

/-! ### C10: the engine never serves a choice-less "normal" node -/

theorem normalize_node_choices (raw : ENode) :
    (_normalize_node raw).choices = normEChoices [] (raw.choices.take 4) := rfl

theorem normalize_node_nt (raw : ENode) :
    (_normalize_node raw).node_type =
      (let nt0 := if strStrip raw.node_type = "" then "normal" else strStrip raw.node_type
       let cs := normEChoices [] (raw.choices.take 4)
       let nt1 := if VALID_NODE_TYPES.contains nt0 then nt0
                  else if !cs.isEmpty then "normal" else "ending_neutral"
       if nt1 = "normal" && cs.isEmpty then "ending_neutral" else nt1) := rfl

theorem normalize_node_no_choiceless_normal (raw : ENode) :
    (_normalize_node raw).node_type = "normal" → (_normalize_node raw).choices ≠ [] := by
  intro hnt hch
  rw [normalize_node_choices] at hch
  rw [normalize_node_nt] at hnt
  simp only [hch, List.isEmpty_nil, Bool.and_true, Bool.not_true, Bool.false_eq_true,
    if_false, decide_eq_true_eq] at hnt
  by_cases h2 : (if VALID_NODE_TYPES.contains
      (if strStrip raw.node_type = "" then "normal" else strStrip raw.node_type) = true
      then (if strStrip raw.node_type = "" then "normal" else strStrip raw.node_type)
      else "ending_neutral") = "normal"
  · rw [if_pos h2] at hnt
    exact absurd hnt (by decide)
  · rw [if_neg h2] at hnt
    exact h2 hnt

theorem engineLoad_src_some (l : List ENode) :
    (engineLoad (some l)).byIdSrc =
      (if l.isEmpty = true then _default_story
       else if ((l.map _normalize_node).filter (fun n => n.id ≠ "")).isEmpty = true
       then _default_story
       else (l.map _normalize_node).filter (fun n => n.id ≠ "")) := rfl

theorem engineLoad_src_ok (data : Option (List ENode)) :
    ∀ n ∈ (engineLoad data).byIdSrc, n.node_type = "normal" → n.choices ≠ [] := by
  have hdefault : ∀ m ∈ _default_story, m.node_type = "normal" → m.choices ≠ [] := by
    intro m hm
    simp only [_default_story, List.mem_singleton] at hm
    subst hm
    intro habs
    exact absurd (show ("ending_neutral" : String) = "normal" from habs) (by decide)
  intro n hn
  cases data with
  | none => exact hdefault n hn
  | some l =>
    rw [engineLoad_src_some] at hn
    by_cases hle : l.isEmpty = true
    · rw [if_pos hle] at hn
      exact hdefault n hn
    · rw [if_neg hle] at hn
      by_cases hke : ((l.map _normalize_node).filter (fun n => n.id ≠ "")).isEmpty = true
      · rw [if_pos hke] at hn
        exact hdefault n hn
      · rw [if_neg hke] at hn
        obtain ⟨hn', _⟩ := List.mem_filter.mp hn
        obtain ⟨raw, _, rfl⟩ := List.mem_map.mp hn'
        exact normalize_node_no_choiceless_normal raw

theorem get_entry_node_cases (st : EngineState) :
    get_entry_node st ∈ st.byIdSrc ∨ get_entry_node st ∈ st.nodes ∨
      get_entry_node st = defaultStoryNode := by
  unfold get_entry_node
  cases hfind : get_node st "section_1" with
  | some m =>
    left
    exact (List.mem_reverse).mp (List.mem_of_find?_eq_some hfind)
  | none =>
    cases hns : st.nodes with
    | nil => right; right; rfl
    | cons m ms =>
      right; left
      exact List.mem_cons_self m ms

theorem mem_nodes_byIdSrc (data : Option (List ENode)) (m : ENode) :
    m ∈ (engineLoad data).nodes → m ∈ (engineLoad data).byIdSrc := by
  intro h
  have hred : (engineLoad data).nodes = sortStable eLe ((engineLoad data).byIdSrc) := rfl
  rw [hred] at h
  exact (mem_sortStable _ _ _).mp h

/-- C10: after `StoryEngine.load`, no node returned by `get_node` or
`get_entry_node` is typed "normal" with zero choices — `_normalize_node`
reclassifies any choice-less "normal" node to "ending_neutral". -/
theorem engine_no_choiceless_normal (data : Option (List ENode)) :
    (∀ (i : String) (n : ENode), get_node (engineLoad data) i = some n →
        ¬(n.node_type = "normal" ∧ n.choices = [])) ∧
    ¬((get_entry_node (engineLoad data)).node_type = "normal" ∧
        (get_entry_node (engineLoad data)).choices = []) := by
  have hsrc := engineLoad_src_ok data
  have hdefprop : ¬(defaultStoryNode.node_type = "normal" ∧
      defaultStoryNode.choices = []) := by decide
  constructor
  · intro i n hn
    rintro ⟨hnt, hch⟩
    have hmem : n ∈ (engineLoad data).byIdSrc :=
      (List.mem_reverse).mp (List.mem_of_find?_eq_some hn)
    exact (hsrc n hmem hnt) hch
  · rintro ⟨hnt, hch⟩
    rcases get_entry_node_cases (engineLoad data) with hmem | hmem | heq
    · exact (hsrc _ hmem hnt) hch
    · exact (hsrc _ (mem_nodes_byIdSrc data _ hmem) hnt) hch
    · rw [heq] at hnt hch
      exact hdefprop ⟨hnt, hch⟩

/-! ### C8: the validator CLI exit-code contract -/

theorem lintChecks_shape (nodes : List LNode) (minReach maxNoise : ℚ) (fix : Bool) :
    ∃ d r n : Bool,
      lintChecks nodes minReach maxNoise fix = ([d, r, n], if d && r && n then 0 else 1) :=
  ⟨_, _, _, rfl⟩

/-- C8: one PASS/FAIL outcome per check (three when the store loads), exit
code 0 iff all three checks pass, exit code 2 exactly on load failure
(missing file, invalid JSON, non-list root), and no other codes occur. -/
theorem lint_main_exit_code_contract (inp : LintInput) (minReach maxNoise : ℚ) (fix : Bool) :
    ((lint_main inp minReach maxNoise fix).2 = 0 ↔
      (lint_main inp minReach maxNoise fix).1.length = 3 ∧
        (lint_main inp minReach maxNoise fix).1.all id = true) ∧
    ((lint_main inp minReach maxNoise fix).2 = 2 ↔
      ∀ nodes, inp ≠ LintInput.store nodes) ∧
    ((lint_main inp minReach maxNoise fix).2 = 0 ∨
      (lint_main inp minReach maxNoise fix).2 = 1 ∨
      (lint_main inp minReach maxNoise fix).2 = 2) ∧
    (∀ nodes, inp = LintInput.store nodes →
      (lint_main inp minReach maxNoise fix).1.length = 3) := by
  cases inp with
  | missingFile =>
    refine ⟨by simp [lint_main], by simp [lint_main], by simp [lint_main], ?_⟩
    intro nodes h
    cases h
  | invalidJson =>
    refine ⟨by simp [lint_main], by simp [lint_main], by simp [lint_main], ?_⟩
    intro nodes h
    cases h
  | nonListRoot =>
    refine ⟨by simp [lint_main], by simp [lint_main], by simp [lint_main], ?_⟩
    intro nodes h
    cases h
  | store nodes =>
    obtain ⟨d, r, n, heq⟩ := lintChecks_shape nodes minReach maxNoise fix
    have hmain : lint_main (LintInput.store nodes) minReach maxNoise fix =
        ([d, r, n], if d && r && n then 0 else 1) := heq
    rw [hmain]
    refine ⟨?_, ?_, ?_, ?_⟩
    · cases d <;> cases r <;> cases n <;> simp
    · constructor
      · intro h
        cases d <;> cases r <;> cases n <;> simp_all
      · intro h
        exact absurd rfl (h nodes)
    · cases d <;> cases r <;> cases n <;> simp
    · intro _ _
      rfl

/-! ### C6: the choice extractor's bounds and Scenario A -/

theorem extractLoop_cons (sent tok : String) (rest : List (String × String))
    (seen : List Int) (found : Nat) :
    extractLoop ((sent, tok) :: rest) seen found =
      (match token_to_int tok with
       | none => extractLoop rest seen found
       | some d =>
         if (1 ≤ d && d ≤ 500 : Bool) = true then
           if seen.contains d = true then extractLoop rest seen found
           else
             if found + 1 ≥ 4 then [(clean_choice_label sent d, d)]
             else (clean_choice_label sent d, d) :: extractLoop rest (d :: seen) (found + 1)
         else extractLoop rest seen found) := rfl

theorem extractLoop_cons_some (sent tok : String) (rest : List (String × String))
    (seen : List Int) (found : Nat) (d : Int) (ht : token_to_int tok = some d) :
    extractLoop ((sent, tok) :: rest) seen found =
      (if (1 ≤ d && d ≤ 500 : Bool) = true then
         if seen.contains d = true then extractLoop rest seen found
         else
           if found + 1 ≥ 4 then [(clean_choice_label sent d, d)]
           else (clean_choice_label sent d, d) :: extractLoop rest (d :: seen) (found + 1)
       else extractLoop rest seen found) := by
  rw [extractLoop_cons, ht]

theorem extractLoop_length (ms : List (String × String)) : ∀ seen found, found ≤ 3 →
    (extractLoop ms seen found).length ≤ 4 - found := by
  induction ms with
  | nil =>
    intro seen found _
    simp [extractLoop]
  | cons m rest ih =>
    intro seen found hf
    obtain ⟨sent, tok⟩ := m
    cases ht : token_to_int tok with
    | none =>
      have hred : extractLoop ((sent, tok) :: rest) seen found = extractLoop rest seen found := by
        rw [extractLoop_cons, ht]
      rw [hred]
      exact ih seen found hf
    | some d =>
      by_cases h1 : (1 ≤ d && d ≤ 500 : Bool) = true
      · by_cases h2 : seen.contains d = true
        · have hred : extractLoop ((sent, tok) :: rest) seen found =
              extractLoop rest seen found := by
            rw [extractLoop_cons_some sent tok rest seen found d ht, if_pos h1, if_pos h2]
          rw [hred]
          exact ih seen found hf
        · by_cases h3 : found + 1 ≥ 4
          · have hred : extractLoop ((sent, tok) :: rest) seen found =
                [(clean_choice_label sent d, d)] := by
              rw [extractLoop_cons_some sent tok rest seen found d ht,
                if_pos h1, if_neg h2, if_pos h3]
            rw [hred]
            simp
            omega
          · have hred : extractLoop ((sent, tok) :: rest) seen found =
                (clean_choice_label sent d, d) ::
                  extractLoop rest (d :: seen) (found + 1) := by
              rw [extractLoop_cons_some sent tok rest seen found d ht,
                if_pos h1, if_neg h2, if_neg h3]
            rw [hred]
            have := ih (d :: seen) (found + 1) (by omega)
            simp only [List.length_cons]
            omega
      · have hred : extractLoop ((sent, tok) :: rest) seen found =
            extractLoop rest seen found := by
          rw [extractLoop_cons_some sent tok rest seen found d ht, if_neg (by simp [h1])]
        rw [hred]
        exact ih seen found hf

theorem extractLoop_dests (ms : List (String × String)) : ∀ seen found,
    ((extractLoop ms seen found).map Prod.snd).Nodup ∧
    (∀ p ∈ extractLoop ms seen found, p.2 ∉ seen ∧ 1 ≤ p.2 ∧ p.2 ≤ 500) := by
  induction ms with
  | nil =>
    intro seen found
    simp [extractLoop]
  | cons m rest ih =>
    intro seen found
    obtain ⟨sent, tok⟩ := m
    cases ht : token_to_int tok with
    | none =>
      have hred : extractLoop ((sent, tok) :: rest) seen found = extractLoop rest seen found := by
        rw [extractLoop_cons, ht]
      rw [hred]
      exact ih seen found
    | some d =>
      by_cases h1 : (1 ≤ d && d ≤ 500 : Bool) = true
      · have hd1 : 1 ≤ d := by
          have := (Bool.and_eq_true _ _).mp h1
          exact of_decide_eq_true this.1
        have hd2 : d ≤ 500 := by
          have := (Bool.and_eq_true _ _).mp h1
          exact of_decide_eq_true this.2
        by_cases h2 : seen.contains d = true
        · have hred : extractLoop ((sent, tok) :: rest) seen found =
              extractLoop rest seen found := by
            rw [extractLoop_cons_some sent tok rest seen found d ht, if_pos h1, if_pos h2]
          rw [hred]
          exact ih seen found
        · have hdns : d ∉ seen := by simpa using h2
          by_cases h3 : found + 1 ≥ 4
          · have hred : extractLoop ((sent, tok) :: rest) seen found =
                [(clean_choice_label sent d, d)] := by
              rw [extractLoop_cons_some sent tok rest seen found d ht,
                if_pos h1, if_neg h2, if_pos h3]
            rw [hred]
            refine ⟨by simp, ?_⟩
            intro p hp
            simp only [List.mem_singleton] at hp
            subst hp
            exact ⟨hdns, hd1, hd2⟩
          · have hred : extractLoop ((sent, tok) :: rest) seen found =
                (clean_choice_label sent d, d) ::
                  extractLoop rest (d :: seen) (found + 1) := by
              rw [extractLoop_cons_some sent tok rest seen found d ht,
                if_pos h1, if_neg h2, if_neg h3]
            rw [hred]
            obtain ⟨hnd, hprop⟩ := ih (d :: seen) (found + 1)
            constructor
            · simp only [List.map_cons, List.nodup_cons]
              refine ⟨?_, hnd⟩
              intro habs
              obtain ⟨p, hp, hpd⟩ := List.mem_map.mp habs
              have := (hprop p hp).1
              rw [hpd] at this
              exact this (by simp)
            · intro p hp
              rcases List.mem_cons.mp hp with rfl | hp'
              · exact ⟨hdns, hd1, hd2⟩
              · obtain ⟨hns, hr1, hr2⟩ := hprop p hp'
                exact ⟨fun hm => hns (by simp [hm]), hr1, hr2⟩
      · have hred : extractLoop ((sent, tok) :: rest) seen found =
            extractLoop rest seen found := by
          rw [extractLoop_cons_some sent tok rest seen found d ht, if_neg (by simp [h1])]
        rw [hred]
        exact ih seen found

/-- C6: the extractor returns at most 4 pairs, with pairwise-distinct
destinations all in [1, 500]; but on Scenario A's text it returns NO choice at
all — the leftmost regex match at "Turn" captures the token "to" (the first
alphanumeric run after the cue verb), `token_to_int` discards it, and the
whole clause is consumed, so the duplicate-collapse scenario never sees 12. -/
theorem extract_choices_bounds_and_scenarioA :
    (∀ raw : String, (extract_choices raw).length ≤ 4 ∧
        ((extract_choices raw).map Prod.snd).Nodup ∧
        (extract_choices raw).all (fun p => 1 ≤ p.2 && p.2 ≤ 500) = true) ∧
    extract_choices scenarioAText = [] := by
  constructor
  · intro raw
    refine ⟨?_, ?_, ?_⟩
    · have h := extractLoop_length
        (choiceMatches (normalize_ws (normalize_text raw))) [] 0 (by omega)
      simpa [extract_choices] using h
    · exact (extractLoop_dests _ [] 0).1
    · rw [List.all_eq_true]
      intro p hp
      obtain ⟨_, h1, h2⟩ := (extractLoop_dests
        (choiceMatches (normalize_ws (normalize_text raw))) [] 0).2 p hp
      simp only [Bool.and_eq_true, decide_eq_true_eq]
      exact ⟨h1, h2⟩
  · decide

end CYOA
